import Mathlib

/-!
# FileZipper: a shallow embedding of `src/FileZipper.cpp`

The program is a Huffman compressor with two modes, `zip` and `unzip`.
This file embeds the pieces of `main` and `buildHuffmanCodes` as Lean
functions and proves properties about them.

Modelling conventions.

* A `char` is its unsigned byte value, `Fin 256`; `std::string` is a list of
  bytes.
* `HuffmanNode*` is a tree value: either `nullptr` or a node with its four
  fields.
* `int` is `Int` wrapped to 32 bits two's complement by `wrapInt` at every
  arithmetic operation of the source.
* `std::map` is a partial function; `operator[]` on a missing key inserts the
  default value.
* `std::priority_queue` is the list of its elements together with a
  tie-breaking oracle `tie`, which chooses which of the elements that
  `Compare` allows at the top is the top. Every deterministic priority queue
  is an instance of some oracle.
* Undefined behaviour (`top()` of an empty queue) is `none`.
-/

namespace FileZipper

/-- A `char`, by its unsigned byte value. -/
abbrev Byte := Fin 256

/-- A `std::string`. -/
abbrev Str := List Byte

/-- The characters used by the file format and the code strings. -/
def chZero : Byte := 48
def chOne : Byte := 49
def chColon : Byte := 58
def chNewline : Byte := 10

/-- The line `CODES:`. -/
def codesHeader : Str := [67, 79, 68, 69, 83, 58]

/-- The line `DATA:`. -/
def dataHeader : Str := [68, 65, 84, 65, 58]

/-- Two's complement wrap of an `int` (32 bits). -/
def wrapInt (x : Int) : Int := (x + 2147483648) % 4294967296 - 2147483648

/-- `HuffmanNode*`: the null pointer, or a node with fields
`character`, `frequency`, `left`, `right`. -/
inductive HuffmanNode where
  | nullptr : HuffmanNode
  | mk (character : Byte) (frequency : Int) (left right : HuffmanNode) : HuffmanNode
  deriving DecidableEq

namespace HuffmanNode

/-- Field `frequency` (the program never reads it through a null pointer). -/
def frequency : HuffmanNode → Int
  | nullptr => 0
  | mk _ f _ _ => f

end HuffmanNode

open HuffmanNode

/-- `Compare::operator()`: `a->frequency > b->frequency`. -/
def Compare (a b : HuffmanNode) : Bool := decide (a.frequency > b.frequency)

/-- `std::map<char, std::string>`. -/
abbrev CodeMap := Byte → Option Str

/-- Assignment `m[key] = value`. -/
def CodeMap.set (m : CodeMap) (key : Byte) (value : Str) : CodeMap :=
  fun k => if k = key then some value else m k

/-- Recursive function `buildHuffmanCodes(node, code, huffmanCodes)`. -/
def buildHuffmanCodes : HuffmanNode → Str → CodeMap → CodeMap
  | nullptr, _, huffmanCodes => huffmanCodes
  | mk character _ left right, code, huffmanCodes =>
    let m0 :=
      if left = nullptr ∧ right = nullptr then huffmanCodes.set character code
      else huffmanCodes
    let m1 := buildHuffmanCodes left (code ++ [chZero]) m0
    buildHuffmanCodes right (code ++ [chOne]) m1

/-- Assignment `freq[i] = v` on the array `int freq[256]`. -/
@[noinline]
def arraySet (freq : Byte → Int) (i : Byte) (v : Int) : Byte → Int :=
  fun b => if b = i then v else freq b

/-- The loop `while (inputFile.get(ch)) freq[static_cast<unsigned char>(ch)]++`
over the bytes still to be read. -/
def countLoop : (Byte → Int) → Str → (Byte → Int)
  | freq, [] => freq
  | freq, ch :: rest => countLoop (arraySet freq ch (wrapInt (freq ch + 1))) rest

/-- Step 1 of `zip`: the loop run from `int freq[ASCII_SIZE] = { 0 }`. -/
def countFrequencies (input : Str) : Byte → Int :=
  countLoop (fun _ => 0) input

/-- The tie-breaking oracle of the priority queue. -/
abbrev Tie := List HuffmanNode → Nat

/-- `pq.push(x)`. -/
def pqPush (pq : List HuffmanNode) (x : HuffmanNode) : List HuffmanNode := pq ++ [x]

/-- The elements that may be at the top of the heap: those that `Compare`
puts below no other element. -/
def topCandidates (pq : List HuffmanNode) : List HuffmanNode :=
  pq.filter (fun x => pq.all (fun y => !Compare x y))

/-- `pq.top()`; `none` on an empty queue. -/
def pqTop (tie : Tie) (pq : List HuffmanNode) : Option HuffmanNode :=
  (topCandidates pq)[tie pq % (topCandidates pq).length]?

/-- `pq.pop()`: removes the element `pq.top()` returns (the program calls it
only after `top()`, on a queue that is not empty). -/
def pqPop (tie : Tie) (pq : List HuffmanNode) : List HuffmanNode :=
  match pqTop tie pq with
  | none => pq
  | some x => pq.erase x

/-- The values of `i` in `for (int i = 0; i < ASCII_SIZE; ++i)`, as bytes. -/
def byteValues : List Byte := List.finRange 256

/-- Step 2 of `zip`: one leaf per byte value with a positive count, pushed in
increasing order of `i`. -/
def seedQueue (freq : Byte → Int) : List HuffmanNode :=
  byteValues.foldl
    (fun pq i => if freq i > 0 then pqPush pq (mk i (freq i) nullptr nullptr) else pq) []

/-- The body of the merge loop of step 3. -/
def mergeStep (tie : Tie) (pq : List HuffmanNode) : Option (List HuffmanNode) :=
  match pqTop tie pq with
  | none => none
  | some left =>
    let pq1 := pqPop tie pq
    match pqTop tie pq1 with
    | none => none
    | some right =>
      let pq2 := pqPop tie pq1
      let combinedFreq := wrapInt (left.frequency + right.frequency)
      some (pqPush pq2 (mk 0 combinedFreq left right))

/-- Step 3 of `zip`: `while (pq.size() > 1)` merge; `fuel` bounds the number
of iterations. The queue loses one element per iteration, so its size is
enough fuel and the loop always ends: `mergeLoop_terminates`. -/
def mergeLoopFuel (tie : Tie) : Nat → List HuffmanNode → Option (List HuffmanNode)
  | 0, pq => if pq.length > 1 then none else some pq
  | fuel + 1, pq =>
    if pq.length > 1 then
      match mergeStep tie pq with
      | none => none
      | some pq' => mergeLoopFuel tie fuel pq'
    else some pq

/-- The merge loop, run with the queue size as fuel. -/
def mergeLoop (tie : Tie) (pq : List HuffmanNode) : Option (List HuffmanNode) :=
  mergeLoopFuel tie pq.length pq

/-- Step 3 and `HuffmanNode* root = pq.top()`, from the queue of step 2. -/
def rootOfQueue (tie : Tie) (pq : List HuffmanNode) : Option HuffmanNode :=
  match mergeLoop tie pq with
  | none => none
  | some pq => pqTop tie pq

/-- Steps 1 to 3 and `root = pq.top()`. -/
def buildTree (tie : Tie) (input : Str) : Option HuffmanNode :=
  rootOfQueue tie (seedQueue (countFrequencies input))

/-- Step 4: `buildHuffmanCodes(root, "", huffmanCodes)` on an empty map. -/
def generateCodes (root : HuffmanNode) : CodeMap :=
  buildHuffmanCodes root [] (fun _ => none)

/-- `huffmanCodes[ch]` as an rvalue: a missing key is inserted with the empty
string. -/
def CodeMap.index (m : CodeMap) (ch : Byte) : CodeMap × Str :=
  match m ch with
  | some code => (m, code)
  | none => (m.set ch [], [])

/-- Step 5: `encodedData += huffmanCodes[ch]` for every byte of the input. -/
def encodeLoop : CodeMap → Str → Str → CodeMap × Str
  | huffmanCodes, encodedData, [] => (huffmanCodes, encodedData)
  | huffmanCodes, encodedData, ch :: rest =>
    let r := huffmanCodes.index ch
    encodeLoop r.1 (encodedData ++ r.2) rest

/-- Iteration order of a `std::map<char, _>`: increasing `char`, a signed
type here, so the bytes 128..255 come before 0..127. -/
def charOrder : List Byte :=
  byteValues.map (fun i => i + 128)

/-- The entries of the map in iteration order. -/
def CodeMap.entries (m : CodeMap) : List (Byte × Str) :=
  charOrder.filterMap (fun k => (m k).map (fun code => (k, code)))

/-- One line `<byte>:<codeword>\n` of the output file. -/
def entryLine (e : Byte × Str) : Str := e.1 :: chColon :: e.2 ++ [chNewline]

/-- Step 6: the text written to the output file. -/
def serialize (entries : List (Byte × Str)) (encodedData : Str) : Str :=
  codesHeader ++ [chNewline] ++ (entries.map entryLine).flatten
    ++ dataHeader ++ [chNewline] ++ encodedData ++ [chNewline]

/-- What the `zip` branch computes. -/
structure ZipResult where
  root : HuffmanNode
  generated : CodeMap
  huffmanCodes : CodeMap
  encodedData : Str
  outputFile : Str

/-- Steps 4 to 6 of `zip`, from the root of the tree. -/
def zipFromRoot (root : HuffmanNode) (input : Str) : ZipResult :=
  let generated := generateCodes root
  let r := encodeLoop generated [] input
  { root := root, generated := generated, huffmanCodes := r.1, encodedData := r.2,
    outputFile := serialize r.1.entries r.2 }

/-- Steps 4 to 6 when `pq.top()` has returned a root. -/
def zipFrom : Option HuffmanNode → Str → Option ZipResult
  | none, _ => none
  | some root, input => some (zipFromRoot root input)

/-- The `zip` branch of `main`; `none` when the run has undefined
behaviour. -/
def zip (tie : Tie) (input : Str) : Option ZipResult :=
  zipFrom (buildTree tie input) input

/-- `std::map<std::string, char>`. -/
abbrev DecodeMap := Str → Option Byte

/-- Assignment `codeToChar[code] = ch`. -/
def DecodeMap.set (m : DecodeMap) (code : Str) (ch : Byte) : DecodeMap :=
  fun c => if c = code then some ch else m c

/-- Step 3 of `unzip`: the decode loop, from the candidate `currentCode` with
`out` already written; returns the bytes written and the final candidate. -/
def decodeLoop (codeToChar : DecodeMap) : Str → Str → Str → Str × Str
  | currentCode, out, [] => (out, currentCode)
  | currentCode, out, bit :: rest =>
    let currentCode := currentCode ++ [bit]
    match codeToChar currentCode with
    | some ch => decodeLoop codeToChar [] (out ++ [ch]) rest
    | none => decodeLoop codeToChar currentCode out rest

/-- The bytes the decoder writes for a stream. -/
def decode (codeToChar : DecodeMap) (encodedData : Str) : Str :=
  (decodeLoop codeToChar [] [] encodedData).1

/-- The inverse of a code table, as the decoder's map. -/
def invertEntries (entries : List (Byte × Str)) : DecodeMap :=
  entries.foldl (fun m e => m.set e.2 e.1) (fun _ => none)

/-- The lines that successive `std::getline` calls read from a file with the
given content: the text is cut at every newline, and a last line without a
newline is still read when it is not empty. -/
def getlines : Str → List Str
  | [] => []
  | c :: rest =>
    if c = chNewline then [] :: getlines rest
    else
      match getlines rest with
      | [] => [[c]]
      | l :: ls => (c :: l) :: ls

/-- `std::getline(inputFile, line)` on a stream given by the lines still to
be read: success flag, the new value of `line`, the stream afterwards. A
failing call leaves an empty `line` empty. -/
def getline (stream : List Str) (line : Str) : Bool × Str × List Str :=
  match stream with
  | [] => (false, line, [])
  | l :: rest => (true, l, rest)

/-- The body of the entry loop of `unzip` after the `DATA:` test. -/
def parseEntry (line : Str) (codeToChar : DecodeMap) : DecodeMap :=
  if line.length ≥ 3 ∧ line.get? 1 = some chColon then
    codeToChar.set (line.drop 2) (line.headD 0)
  else codeToChar

/-- Step 1 of `unzip` after the header: `while (std::getline(inputFile, line))`
with `break` at the line `DATA:`. Returns the stream left and the map. -/
def readEntries : List Str → DecodeMap → List Str × DecodeMap
  | [], codeToChar => ([], codeToChar)
  | line :: rest, codeToChar =>
    if line = dataHeader then (rest, codeToChar)
    else readEntries rest (parseEntry line codeToChar)

/-- Steps 1 and 2 of `unzip`: header check, entries, stream line; `none` is
the format error of the header check. -/
def parseFile (text : Str) : Option (DecodeMap × Str) :=
  let r := getline (getlines text) []
  if r.2.1 ≠ codesHeader then none
  else
    let p := readEntries r.2.2 (fun _ => none)
    let encodedData := (getline p.1 []).2.1
    some (p.2, encodedData)

/-- What the `unzip` branch does: the exit status of `main` and the bytes
written to the output file. -/
structure UnzipResult where
  exitCode : Nat
  output : Str
  deriving DecidableEq

/-- The `unzip` branch of `main`. -/
def unzip (text : Str) : UnzipResult :=
  match parseFile text with
  | none => { exitCode := 1, output := [] }
  | some p => { exitCode := 0, output := decode p.1 p.2 }

/-! ## Definitions used to state the properties -/

/-- The line of a table entry, without its newline. -/
def entryText (e : Byte × Str) : Str := e.1 :: chColon :: e.2

/-- A leaf as step 2 creates it. -/
def leafNode (freq : Byte → Int) (i : Byte) : HuffmanNode := mk i (freq i) nullptr nullptr

/-- The leaves of a tree from left to right, each with the code
`buildHuffmanCodes` has accumulated when it reaches it from `code`. -/
def leafCodes : HuffmanNode → Str → List (Byte × Str)
  | nullptr, _ => []
  | mk character _ left right, code =>
    (if left = nullptr ∧ right = nullptr then [(character, code)] else [])
      ++ leafCodes left (code ++ [chZero]) ++ leafCodes right (code ++ [chOne])

/-- The leaves of a tree from left to right: byte and frequency. -/
def leaves : HuffmanNode → List (Byte × Int)
  | nullptr => []
  | mk character frequency left right =>
    (if left = nullptr ∧ right = nullptr then [(character, frequency)] else [])
      ++ leaves left ++ leaves right

/-- The map after the assignments `m[e.1] = e.2` in list order. -/
def assignAll (m : CodeMap) (es : List (Byte × Str)) : CodeMap :=
  es.foldl (fun m e => m.set e.1 e.2) m

/-- Every node below and including this one has no child or two children. -/
def Strict : HuffmanNode → Prop
  | nullptr => False
  | mk _ _ left right => (left = nullptr ∧ right = nullptr) ∨ (Strict left ∧ Strict right)

/-- The frequency table as the list of its positive entries. -/
def frequencyTable (freq : Byte → Int) : List (Byte × Int) :=
  (byteValues.filter (fun i => decide (freq i > 0))).map (fun i => (i, freq i))

/-- The stream the encoder writes from a total code table. -/
def encodeWith (m : CodeMap) (S : Str) : Str :=
  (S.map (fun b => (m b).getD [])).flatten

/-- A tie-breaking oracle: always the first candidate. -/
def firstTie : Tie := fun _ => 0

/-- The input of 2^31 bytes `a` followed by one byte `b`. -/
def longInput : Str := List.replicate 2147483648 97 ++ [98]

/-- No code word of the map is a proper prefix of another. -/
def PrefixFree (M : DecodeMap) : Prop :=
  ∀ c1 c2 b1 b2, M c1 = some b1 → M c2 = some b2 → c1 <+: c2 → c1 = c2

/-- The decoder's map of the table `a:1, b:0`. -/
def sampleTable : DecodeMap :=
  DecodeMap.set (DecodeMap.set (fun _ => none) [49] 97) [48] 98

/-- Every node with two children has a left child whose frequency is at most
the frequency of its right child. -/
def LeftLe : HuffmanNode → Prop
  | nullptr => True
  | mk _ _ left right =>
    (left ≠ nullptr → right ≠ nullptr → left.frequency ≤ right.frequency) ∧
      LeftLe left ∧ LeftLe right

/-- The number of edges on the longest path from a node down to a leaf. -/
def height : HuffmanNode → Nat
  | nullptr => 0
  | mk _ _ left right =>
    if left = nullptr ∧ right = nullptr then 0 else 1 + max (height left) (height right)

/-- The first `k` iterations of the merge loop, each entered with
`pq.size() > 1`; `none` when the loop stops before it has made `k`. -/
def iterateMerge (tie : Tie) : Nat → List HuffmanNode → Option (List HuffmanNode)
  | 0, pq => some pq
  | k + 1, pq =>
    if pq.length > 1 then
      match mergeStep tie pq with
      | none => none
      | some pq' => iterateMerge tie k pq'
    else none

/-- The sum of the frequencies of the leaves below a node. -/
def leafSum (x : HuffmanNode) : Int := ((leaves x).map Prod.snd).sum

/-- Below and at this node, the frequency of every node with children is the
sum of the frequencies of its two children, computed without overflow, and
the sum of the frequencies of the leaves below it. -/
def SumsExact : HuffmanNode → Prop
  | nullptr => True
  | mk character frequency left right =>
    (left = nullptr ∧ right = nullptr) ∨
      (frequency = left.frequency + right.frequency ∧
        -2147483648 ≤ left.frequency + right.frequency ∧
        left.frequency + right.frequency < 2147483648 ∧
        frequency = leafSum (mk character frequency left right) ∧
        SumsExact left ∧ SumsExact right)

/-- The queue property behind the frequency sums: every tree is strict, its
sums are exact, the frequency of its root is the sum of its leaves, and the
leaves of the queue are the entries of `L`. -/
def SumsQueue (L : List (Byte × Int)) (pq : List HuffmanNode) : Prop :=
  (∀ x ∈ pq, Strict x ∧ SumsExact x ∧ x.frequency = leafSum x) ∧
    (pq.flatMap leaves).Perm L

/-- The Kraft sum of a list of code words: the sum of `2 ^ (-length)`. -/
def kraftSum (cs : List Str) : ℚ := (cs.map (fun c => (1 / 2 : ℚ) ^ c.length)).sum

/-- No code word of the list is a prefix of another one. -/
def PrefixFreeList (cs : List Str) : Prop :=
  cs.Pairwise (fun x y => ¬ x <+: y ∧ ¬ y <+: x)

/-- The code words of the list that start with `x`, without that first
character. -/
def tailsOf (x : Byte) (cs : List Str) : List Str :=
  cs.filterMap (fun c =>
    match c with
    | [] => none
    | y :: t => if y = x then some t else none)

/-- The Kraft sum of an assignment of code word lengths, given as pairs of a
weight and a length. -/
def kraftA (A : List (Int × Nat)) : ℚ := (A.map (fun p => (1 / 2 : ℚ) ^ p.2)).sum

/-- The cost of an assignment: the sum of weight times length. -/
def costA (A : List (Int × Nat)) : Int := (A.map (fun p => p.1 * (p.2 : Int))).sum

/-- The sum of the lengths of an assignment. -/
def totalLength (A : List (Int × Nat)) : Nat := (A.map Prod.snd).sum

/-- What equalizing proves for the two lightest weights `a`, `b` with lengths
`la`, `lb` and the rest `R` of an assignment: lengths for the same weights,
equal and positive on `a` and `b`, that satisfy Kraft's inequality and cost no
more. -/
def Equalized (a b : Int) (la lb : Nat) (R : List (Int × Nat)) : Prop :=
  ∃ (m : Nat) (R' : List (Int × Nat)), 1 ≤ m ∧ (R'.map Prod.fst).Perm (R.map Prod.fst) ∧
    kraftA ((a, m) :: (b, m) :: R') ≤ 1 ∧
    costA ((a, m) :: (b, m) :: R') ≤ costA ((a, la) :: (b, lb) :: R)

/-- The measure that equalizing decreases. -/
def equalizeMeasure (la lb : Nat) (R : List (Int × Nat)) : Nat :=
  2 * (la + lb + totalLength R) - min la lb

/-- The weighted path length of a tree: the sum over its leaves of frequency
times depth, computed from the leaf sums of the subtrees. -/
def treeCost : HuffmanNode → Int
  | nullptr => 0
  | mk _ _ left right =>
    if left = nullptr ∧ right = nullptr then 0
    else treeCost left + treeCost right + leafSum left + leafSum right

/-- The sum of the weighted path lengths of the trees of a queue. -/
def queueCost (pq : List HuffmanNode) : Int := (pq.map treeCost).sum

/-- An input of 2^32 + 1 bytes `a`, two bytes `b` and four bytes `c`. -/
def longInput3 : Str := List.replicate 4294967297 97 ++ [98, 98, 99, 99, 99, 99]

/-- The prefix-free code `a = 0`, `b = 10`, any other byte `11`. -/
def shortCode (x : Byte) : Str :=
  if x = 97 then [48] else if x = 98 then [49, 48] else [49, 49]

/-- The counters after counting `longInput3`. -/
def freq3 (c : Byte) : Int :=
  if c = 97 then 1 else if c = 98 then 2 else if c = 99 then 4 else 0

/-- The tree built from the counters `freq3`. -/
def root3 : HuffmanNode :=
  mk 0 7 (mk 0 3 (mk 97 1 nullptr nullptr) (mk 98 2 nullptr nullptr)) (mk 99 4 nullptr nullptr)

/-! ## The line reader and the parser -/

theorem getlines_append_newline (l rest : Str) (h : chNewline ∉ l) :
    getlines (l ++ chNewline :: rest) = l :: getlines rest := by
  induction l with
  | nil => simp [getlines]
  | cons c l ih =>
    have hc : c ≠ chNewline := fun e => h (by simp [e])
    have hl : chNewline ∉ l := fun e => h (by simp [e])
    simp [getlines, hc, ih hl]

theorem getlines_first_line (text : Str) :
    (getline (getlines text) []).2.1 = text.takeWhile (fun c => decide (c ≠ chNewline)) := by
  induction text with
  | nil => simp [getlines, getline]
  | cons c rest ih =>
    by_cases hc : c = chNewline
    · simp [getlines, getline, hc]
    · have ht : (c :: rest).takeWhile (fun c => decide (c ≠ chNewline))
          = c :: rest.takeWhile (fun c => decide (c ≠ chNewline)) := by
        rw [List.takeWhile_cons]; simp [hc]
      rw [ht, ← ih]
      cases hg : getlines rest with
      | nil => simp [getlines, getline, hc, hg]
      | cons l ls => simp [getlines, getline, hc, hg]

theorem parseFile_eq_none_iff (text : Str) :
    parseFile text = none ↔ text.takeWhile (fun c => decide (c ≠ chNewline)) ≠ codesHeader := by
  unfold parseFile
  simp only [getlines_first_line]
  by_cases h : text.takeWhile (fun c => decide (c ≠ chNewline)) = codesHeader <;> simp [h]

theorem entryLine_append (e : Byte × Str) (rest : Str) :
    entryLine e ++ rest = entryText e ++ chNewline :: rest := by
  simp [entryLine, entryText]

theorem getlines_entries (entries : List (Byte × Str)) (rest : Str)
    (h : ∀ e ∈ entries, chNewline ∉ entryText e) :
    getlines ((entries.map entryLine).flatten ++ rest)
      = entries.map entryText ++ getlines rest := by
  induction entries with
  | nil => simp
  | cons e es ih =>
    have he : chNewline ∉ entryText e := h e (by simp)
    have hes : ∀ e ∈ es, chNewline ∉ entryText e := fun x hx => h x (by simp [hx])
    simp only [List.map_cons, List.flatten_cons, List.append_assoc, List.cons_append]
    rw [entryLine_append, getlines_append_newline _ _ he, ih hes]

theorem readEntries_entries (entries : List (Byte × Str)) (rest : List Str) (m : DecodeMap)
    (h : ∀ e ∈ entries, e.2 ≠ []) :
    readEntries (entries.map entryText ++ dataHeader :: rest) m
      = (rest, entries.foldl (fun m e => m.set e.2 e.1) m) := by
  induction entries generalizing m with
  | nil => simp [readEntries]
  | cons e es ih =>
    have he : e.2 ≠ [] := h e (by simp)
    have hes : ∀ e ∈ es, e.2 ≠ [] := fun x hx => h x (by simp [hx])
    obtain ⟨b, code⟩ := e
    cases code with
    | nil => exact absurd rfl he
    | cons c code =>
      have hd : entryText (b, c :: code) ≠ dataHeader := by
        simp [entryText, dataHeader, chColon]
      have hp : parseEntry (entryText (b, c :: code)) m = m.set (c :: code) b := by
        simp [parseEntry, entryText]
      have hstep : readEntries (entryText (b, c :: code) ::
            (es.map entryText ++ dataHeader :: rest)) m
          = readEntries (es.map entryText ++ dataHeader :: rest)
              (parseEntry (entryText (b, c :: code)) m) := by
        rw [readEntries, if_neg hd]
      rw [List.map_cons, List.cons_append, hstep, hp, ih _ hes, List.foldl_cons]

theorem foldl_set_of_not_mem (entries : List (Byte × Str)) (m : DecodeMap) (code : Str)
    (h : code ∉ entries.map Prod.snd) :
    entries.foldl (fun m e => m.set e.2 e.1) m code = m code := by
  induction entries generalizing m with
  | nil => rfl
  | cons e es ih =>
    simp only [List.map_cons, List.mem_cons, not_or] at h
    rw [List.foldl_cons, ih _ h.2]
    simp [DecodeMap.set, h.1]

theorem foldl_set_of_mem (entries : List (Byte × Str)) (m : DecodeMap) (code : Str) (b : Byte)
    (hnd : (entries.map Prod.snd).Nodup) (h : (b, code) ∈ entries) :
    entries.foldl (fun m e => m.set e.2 e.1) m code = some b := by
  induction entries generalizing m with
  | nil => simp at h
  | cons e es ih =>
    simp only [List.map_cons, List.nodup_cons] at hnd
    rw [List.foldl_cons]
    rcases List.mem_cons.1 h with he | he
    · subst he
      rw [foldl_set_of_not_mem _ _ _ hnd.1]
      simp [DecodeMap.set]
    · exact ih _ hnd.2 he

theorem invertEntries_eq_some_iff (entries : List (Byte × Str)) (code : Str) (b : Byte)
    (hnd : (entries.map Prod.snd).Nodup) :
    invertEntries entries code = some b ↔ (b, code) ∈ entries := by
  constructor
  · intro h
    by_cases hc : code ∈ entries.map Prod.snd
    · obtain ⟨⟨b', c'⟩, he, rfl⟩ := List.mem_map.1 hc
      have := foldl_set_of_mem entries (fun _ => none) c' b' hnd he
      unfold invertEntries at h
      rw [this] at h
      cases h
      exact he
    · unfold invertEntries at h
      rw [foldl_set_of_not_mem _ _ _ hc] at h
      cases h
  · exact foldl_set_of_mem entries _ code b hnd

theorem getlines_serialize (entries : List (Byte × Str)) (D : Str)
    (h : ∀ e ∈ entries, chNewline ∉ entryText e) (hD : chNewline ∉ D) :
    getlines (serialize entries D)
      = codesHeader :: (entries.map entryText ++ [dataHeader, D]) := by
  have h1 : serialize entries D = codesHeader ++ chNewline ::
      ((entries.map entryLine).flatten ++ (dataHeader ++ chNewline :: (D ++ chNewline :: []))) := by
    simp [serialize]
  rw [h1, getlines_append_newline _ _ (by decide), getlines_entries _ _ h,
    getlines_append_newline _ _ (by decide), getlines_append_newline _ _ hD]
  simp [getlines]

theorem parseFile_serialize (entries : List (Byte × Str)) (D : Str)
    (hne : ∀ e ∈ entries, e.2 ≠ [])
    (h : ∀ e ∈ entries, chNewline ∉ entryText e) (hD : chNewline ∉ D) :
    parseFile (serialize entries D) = some (invertEntries entries, D) := by
  unfold parseFile
  rw [getlines_serialize entries D h hD]
  have : entries.map entryText ++ [dataHeader, D]
      = entries.map entryText ++ dataHeader :: [D] := rfl
  simp only [getline, ne_eq, not_true_eq_false, if_false, this,
    readEntries_entries entries [D] _ hne]
  rfl

/-! ## The frequency counter -/

theorem mem_byteValues (b : Byte) : b ∈ byteValues := List.mem_finRange b

theorem nodup_byteValues : byteValues.Nodup := List.nodup_finRange 256

theorem wrapInt_add_wrapInt (x y : Int) : wrapInt (wrapInt x + y) = wrapInt (x + y) := by
  unfold wrapInt; omega

theorem wrapInt_wrapInt (x : Int) : wrapInt (wrapInt x) = wrapInt x := by
  unfold wrapInt; omega

theorem wrapInt_of_range (x : Int) (h0 : -2147483648 ≤ x) (h1 : x < 2147483648) :
    wrapInt x = x := by
  unfold wrapInt; omega

theorem countLoop_apply (S : Str) (freq : Byte → Int) (b : Byte)
    (hw : ∀ c, wrapInt (freq c) = freq c) :
    countLoop freq S b = wrapInt (freq b + S.count b) := by
  induction S generalizing freq with
  | nil => simp [countLoop, hw]
  | cons ch rest ih =>
    have hw2 : ∀ c, wrapInt (arraySet freq ch (wrapInt (freq ch + 1)) c)
        = arraySet freq ch (wrapInt (freq ch + 1)) c := by
      intro c
      by_cases hc : c = ch <;> simp [arraySet, hc, hw, wrapInt_wrapInt]
    rw [countLoop, ih _ hw2]
    by_cases hb : b = ch
    · subst hb
      simp only [arraySet, if_true, List.count_cons_self, wrapInt_add_wrapInt]
      congr 1
      push_cast
      ring
    · have hb2 : ¬ ch = b := fun e => hb e.symm
      simp [arraySet, hb, List.count_cons, hb2]

theorem countFrequencies_apply (S : Str) (b : Byte) :
    countFrequencies S b = wrapInt (S.count b) := by
  unfold countFrequencies
  rw [countLoop_apply S _ b (fun _ => by decide)]
  simp

theorem countFrequencies_of_short (S : Str) (hS : S.length < 2147483648) (b : Byte) :
    countFrequencies S b = S.count b := by
  rw [countFrequencies_apply]
  have h : S.count b ≤ S.length := List.count_le_length _ _
  apply wrapInt_of_range <;> omega

theorem seedLoop_eq (freq : Byte → Int) (l : List Byte) (acc : List HuffmanNode) :
    l.foldl (fun pq i => if freq i > 0 then pqPush pq (mk i (freq i) nullptr nullptr) else pq) acc
      = acc ++ (l.filter (fun i => decide (freq i > 0))).map (leafNode freq) := by
  induction l generalizing acc with
  | nil => simp
  | cons i l ih =>
    rw [List.foldl_cons, ih]
    by_cases hi : freq i > 0
    · simp [hi, pqPush, leafNode]
    · simp [hi]

theorem seedQueue_eq (freq : Byte → Int) :
    seedQueue freq
      = (byteValues.filter (fun i => decide (freq i > 0))).map (leafNode freq) := by
  unfold seedQueue
  rw [seedLoop_eq, List.nil_append]

theorem mem_seedQueue (freq : Byte → Int) (x : HuffmanNode) :
    x ∈ seedQueue freq ↔ ∃ b, 0 < freq b ∧ x = leafNode freq b := by
  rw [seedQueue_eq]
  simp only [List.mem_map, List.mem_filter, mem_byteValues, true_and, decide_eq_true_eq]
  constructor
  · rintro ⟨b, hb, rfl⟩; exact ⟨b, hb, rfl⟩
  · rintro ⟨b, hb, rfl⟩; exact ⟨b, hb, rfl⟩

theorem leafNode_injective (freq : Byte → Int) : Function.Injective (leafNode freq) := by
  intro a b h
  simp only [leafNode, HuffmanNode.mk.injEq] at h
  exact h.1

theorem seedQueue_nodup (freq : Byte → Int) : (seedQueue freq).Nodup := by
  rw [seedQueue_eq]
  exact (nodup_byteValues.filter _).map (leafNode_injective freq)

/-! ## The priority queue -/

theorem exists_min_frequency (pq : List HuffmanNode) (h : pq ≠ []) :
    ∃ x ∈ pq, ∀ y ∈ pq, x.frequency ≤ y.frequency := by
  induction pq with
  | nil => exact absurd rfl h
  | cons a l ih =>
    by_cases hl : l = []
    · subst hl
      exact ⟨a, by simp, by simp⟩
    · obtain ⟨x, hx, hmin⟩ := ih hl
      by_cases hax : a.frequency ≤ x.frequency
      · refine ⟨a, by simp, ?_⟩
        intro y hy
        rcases List.mem_cons.1 hy with rfl | hy
        · exact le_refl _
        · exact le_trans hax (hmin y hy)
      · refine ⟨x, by simp [hx], ?_⟩
        intro y hy
        rcases List.mem_cons.1 hy with rfl | hy
        · omega
        · exact hmin y hy

theorem mem_topCandidates (pq : List HuffmanNode) (x : HuffmanNode) :
    x ∈ topCandidates pq ↔ x ∈ pq ∧ ∀ y ∈ pq, x.frequency ≤ y.frequency := by
  simp [topCandidates, Compare]

theorem pqTop_spec (tie : Tie) (pq : List HuffmanNode) (x : HuffmanNode)
    (h : pqTop tie pq = some x) :
    x ∈ pq ∧ ∀ y ∈ pq, x.frequency ≤ y.frequency :=
  (mem_topCandidates pq x).1 (List.getElem?_mem h)

theorem pqTop_isSome (tie : Tie) (pq : List HuffmanNode) (h : pq ≠ []) :
    ∃ x, pqTop tie pq = some x := by
  obtain ⟨x, hx, hmin⟩ := exists_min_frequency pq h
  have hmem : x ∈ topCandidates pq := (mem_topCandidates pq x).2 ⟨hx, hmin⟩
  have hpos : 0 < (topCandidates pq).length := List.length_pos_of_mem hmem
  have hlt : tie pq % (topCandidates pq).length < (topCandidates pq).length :=
    Nat.mod_lt _ hpos
  exact ⟨_, List.getElem?_eq_getElem hlt⟩

theorem pqTop_nil (tie : Tie) : pqTop tie [] = none := by
  simp [pqTop, topCandidates]

theorem pqTop_singleton (tie : Tie) (x : HuffmanNode) : pqTop tie [x] = some x := by
  simp [pqTop, topCandidates, Compare, Nat.mod_one]

theorem pqPop_perm (tie : Tie) (pq : List HuffmanNode) (x : HuffmanNode)
    (h : pqTop tie pq = some x) : pq.Perm (x :: pqPop tie pq) := by
  unfold pqPop
  rw [h]
  exact List.perm_cons_erase (pqTop_spec tie pq x h).1

/-- What one iteration of the merge loop does on a queue of two or more
nodes: it removes a minimal node `left`, then a minimal node `right` of the
rest, and pushes their parent. -/
theorem mergeStep_spec (tie : Tie) (pq : List HuffmanNode) (h : 2 ≤ pq.length) :
    ∃ left right pq2,
      mergeStep tie pq
        = some (pq2 ++ [mk 0 (wrapInt (left.frequency + right.frequency)) left right]) ∧
      pq.Perm (left :: right :: pq2) ∧
      (∀ y ∈ right :: pq2, left.frequency ≤ y.frequency) ∧
      (∀ y ∈ pq2, right.frequency ≤ y.frequency) := by
  have hne : pq ≠ [] := by intro e; simp [e] at h
  obtain ⟨left, hl⟩ := pqTop_isSome tie pq hne
  have hp1 := pqPop_perm tie pq left hl
  have hlen1 : (pqPop tie pq).length + 1 = pq.length := by
    have := hp1.length_eq; simp at this; omega
  have hne1 : pqPop tie pq ≠ [] := by intro e; simp [e] at hlen1; omega
  obtain ⟨right, hr⟩ := pqTop_isSome tie (pqPop tie pq) hne1
  have hp2 := pqPop_perm tie (pqPop tie pq) right hr
  refine ⟨left, right, pqPop tie (pqPop tie pq), ?_, ?_, ?_, ?_⟩
  · simp [mergeStep, hl, hr, pqPush]
  · exact hp1.trans (List.Perm.cons _ hp2)
  · intro y hy
    exact (pqTop_spec tie pq left hl).2 y (hp1.mem_iff.2 (List.mem_cons_of_mem _ (hp2.mem_iff.2 hy)))
  · intro y hy
    exact (pqTop_spec tie _ right hr).2 y (hp2.mem_iff.2 (List.mem_cons_of_mem _ hy))

/-- The merge loop terminates within its fuel, keeps every property that one
iteration keeps, and ends with at most one node, exactly one when the queue
was not empty. -/
theorem mergeLoopFuel_invariant (tie : Tie) (P : List HuffmanNode → Prop)
    (hP : ∀ pq pq', 2 ≤ pq.length → P pq → mergeStep tie pq = some pq' → P pq') :
    ∀ (fuel : Nat) (pq : List HuffmanNode), pq.length ≤ fuel + 1 → P pq →
      ∃ pq', mergeLoopFuel tie fuel pq = some pq' ∧ P pq' ∧ pq'.length ≤ 1 ∧
        (pq ≠ [] → pq' ≠ []) := by
  intro fuel
  induction fuel with
  | zero =>
    intro pq hlen hp
    have : ¬ pq.length > 1 := by omega
    exact ⟨pq, by simp [mergeLoopFuel, this], hp, by omega, id⟩
  | succ fuel ih =>
    intro pq hlen hp
    by_cases h1 : pq.length > 1
    · obtain ⟨left, right, pq2, hstep, hperm, -, -⟩ := mergeStep_spec tie pq h1
      have hlen2 : pq2.length + 2 = pq.length := by
        have := hperm.length_eq; simp at this; omega
      obtain ⟨pq', hrun, hp', hlen', hne'⟩ :=
        ih (pq2 ++ [mk 0 (wrapInt (left.frequency + right.frequency)) left right])
          (by simp; omega) (hP _ _ h1 hp hstep)
      refine ⟨pq', ?_, hp', hlen', fun _ => hne' (by simp)⟩
      simp [mergeLoopFuel, h1, hstep, hrun]
    · exact ⟨pq, by simp [mergeLoopFuel, h1], hp, by omega, id⟩

theorem mergeLoop_invariant (tie : Tie) (P : List HuffmanNode → Prop)
    (hP : ∀ pq pq', 2 ≤ pq.length → P pq → mergeStep tie pq = some pq' → P pq')
    (pq : List HuffmanNode) (hp : P pq) :
    ∃ pq', mergeLoop tie pq = some pq' ∧ P pq' ∧ pq'.length ≤ 1 ∧ (pq ≠ [] → pq' ≠ []) :=
  mergeLoopFuel_invariant tie P hP pq.length pq (by omega) hp

/-! ## Leaves and code words -/

theorem assignAll_append (m : CodeMap) (es fs : List (Byte × Str)) :
    assignAll m (es ++ fs) = assignAll (assignAll m es) fs := by
  simp [assignAll]

theorem buildHuffmanCodes_eq (node : HuffmanNode) (code : Str) (m : CodeMap) :
    buildHuffmanCodes node code m = assignAll m (leafCodes node code) := by
  induction node generalizing code m with
  | nullptr => rfl
  | mk character frequency left right ihl ihr =>
    rw [buildHuffmanCodes, leafCodes, assignAll_append, assignAll_append, ihr, ihl]
    by_cases h : left = nullptr ∧ right = nullptr
    · simp [h, assignAll]
    · simp [h, assignAll]

theorem assignAll_of_not_mem (es : List (Byte × Str)) (m : CodeMap) (k : Byte)
    (h : k ∉ es.map Prod.fst) : assignAll m es k = m k := by
  induction es generalizing m with
  | nil => rfl
  | cons e es ih =>
    simp only [List.map_cons, List.mem_cons, not_or] at h
    rw [assignAll, List.foldl_cons]
    have := ih (m.set e.1 e.2) h.2
    rw [assignAll] at this
    rw [this]
    simp [CodeMap.set, h.1]

theorem assignAll_of_mem (es : List (Byte × Str)) (m : CodeMap) (k : Byte)
    (h : k ∈ es.map Prod.fst) : ∃ c, assignAll m es k = some c ∧ (k, c) ∈ es := by
  induction es generalizing m with
  | nil => simp at h
  | cons e es ih =>
    by_cases hk : k ∈ es.map Prod.fst
    · obtain ⟨c, hc, hmem⟩ := ih (m.set e.1 e.2) hk
      exact ⟨c, by simpa [assignAll] using hc, List.mem_cons_of_mem _ hmem⟩
    · have he : k = e.1 := by
        simp only [List.map_cons, List.mem_cons] at h
        rcases h with h | h
        · exact h
        · exact absurd h hk
      refine ⟨e.2, ?_, by simp [he]⟩
      have := assignAll_of_not_mem es (m.set e.1 e.2) k hk
      rw [assignAll, List.foldl_cons]
      rw [assignAll] at this
      rw [this]
      simp [CodeMap.set, he]

theorem generateCodes_eq_some (root : HuffmanNode) (k : Byte) (c : Str)
    (h : generateCodes root k = some c) : (k, c) ∈ leafCodes root [] := by
  unfold generateCodes at h
  rw [buildHuffmanCodes_eq] at h
  by_cases hk : k ∈ (leafCodes root []).map Prod.fst
  · obtain ⟨c', hc', hmem⟩ := assignAll_of_mem _ (fun _ => none) k hk
    rw [hc'] at h
    cases h
    exact hmem
  · rw [assignAll_of_not_mem _ _ _ hk] at h
    cases h

theorem generateCodes_isSome_iff (root : HuffmanNode) (k : Byte) :
    (∃ c, generateCodes root k = some c) ↔ k ∈ (leafCodes root []).map Prod.fst := by
  constructor
  · rintro ⟨c, hc⟩
    exact List.mem_map.2 ⟨(k, c), generateCodes_eq_some root k c hc, rfl⟩
  · intro hk
    obtain ⟨c, hc, -⟩ := assignAll_of_mem _ (fun _ => none) k hk
    exact ⟨c, by unfold generateCodes; rw [buildHuffmanCodes_eq]; exact hc⟩

theorem leafCodes_map_fst (node : HuffmanNode) (code : Str) :
    (leafCodes node code).map Prod.fst = (leaves node).map Prod.fst := by
  induction node generalizing code with
  | nullptr => rfl
  | mk character frequency left right ihl ihr =>
    rw [leafCodes, leaves]
    simp only [List.map_append, ihl, ihr]
    by_cases h : left = nullptr ∧ right = nullptr <;> simp [h]

theorem leafCodes_extends (node : HuffmanNode) (code : Str) :
    ∀ e ∈ leafCodes node code, code <+: e.2 := by
  induction node generalizing code with
  | nullptr => intro e he; simp [leafCodes] at he
  | mk character frequency left right ihl ihr =>
    intro e he
    rw [leafCodes] at he
    rcases List.mem_append.1 he with he | he
    · rcases List.mem_append.1 he with he | he
      · by_cases h : left = nullptr ∧ right = nullptr
        · simp only [h, and_self, if_true, List.mem_singleton] at he
          subst he
          exact List.prefix_refl _
        · simp [h] at he
      · exact (List.prefix_append _ _).trans (ihl _ e he)
    · exact (List.prefix_append _ _).trans (ihr _ e he)

theorem branch_zero_one (code x y : Str)
    (hx : code ++ [chZero] <+: x) (hy : code ++ [chOne] <+: y) : ¬ x <+: y := by
  intro hxy
  have h0 := hx.trans hxy
  have h := List.prefix_of_prefix_length_le h0 hy (by simp)
  have he := h.eq_of_length (by simp)
  have := List.append_cancel_left he
  simp [chZero, chOne] at this

theorem branch_one_zero (code x y : Str)
    (hx : code ++ [chZero] <+: x) (hy : code ++ [chOne] <+: y) : ¬ y <+: x := by
  intro hyx
  have h1 := hy.trans hyx
  have h := List.prefix_of_prefix_length_le hx h1 (by simp)
  have he := h.eq_of_length (by simp)
  have := List.append_cancel_left he
  simp [chZero, chOne] at this

/-- The codes of two different leaves of a tree are no prefixes of each
other. -/
theorem leafCodes_pairwise (node : HuffmanNode) (code : Str) :
    (leafCodes node code).Pairwise (fun x y => ¬ x.2 <+: y.2 ∧ ¬ y.2 <+: x.2) := by
  induction node generalizing code with
  | nullptr => simp [leafCodes]
  | mk character frequency left right ihl ihr =>
    rw [leafCodes]
    by_cases h : left = nullptr ∧ right = nullptr
    · obtain ⟨rfl, rfl⟩ := h
      simp [leafCodes]
    · simp only [h, if_false, List.nil_append]
      rw [List.pairwise_append]
      refine ⟨ihl _, ihr _, ?_⟩
      intro x hx y hy
      have px := leafCodes_extends left _ x hx
      have py := leafCodes_extends right _ y hy
      exact ⟨branch_zero_one code _ _ px py, branch_one_zero code _ _ px py⟩

/-! ## The tree the merge loop builds -/

theorem Strict.ne_nullptr {x : HuffmanNode} (h : Strict x) : x ≠ nullptr := by
  intro e; subst e; exact h

theorem leaves_parent (c : Byte) (f : Int) (left right : HuffmanNode)
    (hl : left ≠ nullptr) : leaves (mk c f left right) = leaves left ++ leaves right := by
  rw [leaves]
  simp [hl]

theorem leaves_leafNode (freq : Byte → Int) (i : Byte) :
    leaves (leafNode freq i) = [(i, freq i)] := by
  simp [leafNode, leaves]

theorem strict_leafNode (freq : Byte → Int) (i : Byte) : Strict (leafNode freq i) := by
  simp [leafNode, Strict]

theorem mergeStep_strict_leaves (tie : Tie) (L : List (Byte × Int)) (pq pq' : List HuffmanNode)
    (h2 : 2 ≤ pq.length)
    (hp : (∀ x ∈ pq, Strict x) ∧ (pq.flatMap leaves).Perm L)
    (hstep : mergeStep tie pq = some pq') :
    (∀ x ∈ pq', Strict x) ∧ (pq'.flatMap leaves).Perm L := by
  obtain ⟨left, right, pq2, hs, hperm, -, -⟩ := mergeStep_spec tie pq h2
  rw [hs] at hstep
  cases hstep
  have hleft : Strict left := hp.1 _ (hperm.mem_iff.2 (by simp))
  have hright : Strict right := hp.1 _ (hperm.mem_iff.2 (by simp))
  constructor
  · intro x hx
    rcases List.mem_append.1 hx with hx | hx
    · exact hp.1 _ (hperm.mem_iff.2 (by simp [hx]))
    · rw [List.mem_singleton] at hx
      subst hx
      exact Or.inr ⟨hleft, hright⟩
  · refine List.Perm.trans ?_ hp.2
    refine List.Perm.trans ?_ (List.Perm.flatMap_right leaves hperm).symm
    simp only [List.flatMap_append, List.flatMap_cons, List.flatMap_nil, List.append_nil,
      leaves_parent _ _ _ _ hleft.ne_nullptr]
    exact List.perm_append_comm.trans (by rw [List.append_assoc])

/-- From a non-empty queue of strict trees the merge loop ends with a single
strict tree, whose leaves are the leaves of the trees it started from. -/
theorem mergeLoop_spec (tie : Tie) (pq : List HuffmanNode)
    (hs : ∀ x ∈ pq, Strict x) (hne : pq ≠ []) :
    ∃ root, mergeLoop tie pq = some [root] ∧ Strict root ∧
      (leaves root).Perm (pq.flatMap leaves) := by
  obtain ⟨pq', hrun, hp', hlen, hne'⟩ :=
    mergeLoop_invariant tie
      (fun q => (∀ x ∈ q, Strict x) ∧ (q.flatMap leaves).Perm (pq.flatMap leaves))
      (fun q q' h2 hq hstep => mergeStep_strict_leaves tie _ q q' h2 hq hstep)
      pq ⟨hs, List.Perm.refl _⟩
  match pq', hlen, hne' hne with
  | [root], _, _ =>
    exact ⟨root, hrun, hp'.1 root (by simp), by simpa using hp'.2⟩

/-- The merge loop never runs out of fuel and never pops an empty queue: it
returns a queue of at most one node. -/
theorem mergeLoop_terminates (tie : Tie) (pq : List HuffmanNode) :
    ∃ pq', mergeLoop tie pq = some pq' ∧ pq'.length ≤ 1 ∧ (pq ≠ [] → pq'.length = 1) := by
  obtain ⟨pq', hrun, -, hlen, hne⟩ :=
    mergeLoop_invariant tie (fun _ => True) (fun _ _ _ _ _ => trivial) pq trivial
  refine ⟨pq', hrun, hlen, fun h => ?_⟩
  have := List.length_pos.2 (hne h)
  omega

theorem mergeLoop_nil (tie : Tie) : mergeLoop tie [] = some [] := by
  simp [mergeLoop, mergeLoopFuel]

theorem rootOfQueue_eq (tie : Tie) (q pq : List HuffmanNode)
    (h : mergeLoop tie q = some pq) : rootOfQueue tie q = pqTop tie pq := by
  unfold rootOfQueue
  rw [h]

theorem seedQueue_leaves (freq : Byte → Int) :
    (seedQueue freq).flatMap leaves = frequencyTable freq := by
  rw [seedQueue_eq, frequencyTable]
  induction byteValues.filter (fun i => decide (freq i > 0)) with
  | nil => rfl
  | cons i l ih => simp [List.flatMap_cons, leaves_leafNode, ih]

theorem buildTree_spec (tie : Tie) (input : Str)
    (hne : seedQueue (countFrequencies input) ≠ []) :
    ∃ root, buildTree tie input = some root ∧ Strict root ∧
      (leaves root).Perm (frequencyTable (countFrequencies input)) := by
  have hs : ∀ x ∈ seedQueue (countFrequencies input), Strict x := by
    intro x hx
    obtain ⟨b, -, rfl⟩ := (mem_seedQueue _ x).1 hx
    exact strict_leafNode _ b
  obtain ⟨root, hrun, hstrict, hperm⟩ := mergeLoop_spec tie _ hs hne
  refine ⟨root, ?_, hstrict, ?_⟩
  · unfold buildTree
    rw [rootOfQueue_eq tie _ _ hrun]
    exact pqTop_singleton tie root
  · rw [← seedQueue_leaves]; exact hperm

theorem buildTree_of_no_seed (tie : Tie) (input : Str)
    (h : seedQueue (countFrequencies input) = []) : buildTree tie input = none := by
  unfold buildTree
  rw [h, rootOfQueue_eq tie _ _ (mergeLoop_nil tie)]
  exact pqTop_nil tie

/-! ## The `zip` branch on inputs the counters can count -/

theorem map_fst_map_pair (freq : Byte → Int) (l : List Byte) :
    (l.map (fun i => (i, freq i))).map Prod.fst = l := by
  induction l with
  | nil => rfl
  | cons a l ih => rw [List.map_cons, List.map_cons, ih]

theorem frequencyTable_fst (freq : Byte → Int) :
    (frequencyTable freq).map Prod.fst = byteValues.filter (fun i => decide (freq i > 0)) :=
  map_fst_map_pair freq _

theorem frequencyTable_fst_nodup (freq : Byte → Int) :
    ((frequencyTable freq).map Prod.fst).Nodup :=
  (frequencyTable_fst freq).symm ▸ nodup_byteValues.filter _

theorem mem_frequencyTable_fst (freq : Byte → Int) (b : Byte) :
    b ∈ (frequencyTable freq).map Prod.fst ↔ 0 < freq b := by
  rw [frequencyTable_fst, List.mem_filter]
  simp [mem_byteValues]

theorem countFrequencies_pos_iff (S : Str) (hS : S.length < 2147483648) (b : Byte) :
    0 < countFrequencies S b ↔ b ∈ S := by
  rw [countFrequencies_of_short S hS b, ← List.count_pos_iff]
  exact Int.natCast_pos

theorem seedQueue_ne_nil (S : Str) (hne : S ≠ []) (hS : S.length < 2147483648) :
    seedQueue (countFrequencies S) ≠ [] := by
  cases S with
  | nil => exact absurd rfl hne
  | cons b t =>
    have hb : 0 < countFrequencies (b :: t) b :=
      (countFrequencies_pos_iff _ hS b).2 (by simp)
    have hm : leafNode (countFrequencies (b :: t)) b ∈ seedQueue (countFrequencies (b :: t)) :=
      (mem_seedQueue _ _).2 ⟨b, hb, rfl⟩
    exact List.ne_nil_of_mem hm

/-- The encode loop when every byte has its code word: the map is left as it
is and the code words are appended in order. -/
theorem encodeLoop_total (m : CodeMap) (acc S : Str) (h : ∀ b ∈ S, ∃ c, m b = some c) :
    encodeLoop m acc S = (m, acc ++ (S.map (fun b => (m b).getD [])).flatten) := by
  induction S generalizing acc with
  | nil => simp [encodeLoop]
  | cons b t ih =>
    obtain ⟨c, hc⟩ := h b (by simp)
    have ht : ∀ b ∈ t, ∃ c, m b = some c := fun x hx => h x (by simp [hx])
    have hi : m.index b = (m, c) := by simp [CodeMap.index, hc]
    rw [encodeLoop, hi, ih _ ht]
    simp [hc]

theorem zip_spec (tie : Tie) (S : Str) (hne : S ≠ []) (hS : S.length < 2147483648) :
    ∃ root, buildTree tie S = some root ∧ Strict root ∧
      (∀ b, b ∈ (leaves root).map Prod.fst ↔ b ∈ S) ∧
      ((leaves root).map Prod.fst).Nodup ∧
      zip tie S = some
        { root := root, generated := generateCodes root, huffmanCodes := generateCodes root,
          encodedData := encodeWith (generateCodes root) S,
          outputFile := serialize (generateCodes root).entries
            (encodeWith (generateCodes root) S) } := by
  obtain ⟨root, hb, hstrict, hperm⟩ := buildTree_spec tie S (seedQueue_ne_nil S hne hS)
  have hkeys : ∀ b, b ∈ (leaves root).map Prod.fst ↔ b ∈ S := by
    intro b
    rw [(hperm.map Prod.fst).mem_iff, mem_frequencyTable_fst, countFrequencies_pos_iff S hS]
  have hnd : ((leaves root).map Prod.fst).Nodup :=
    ((hperm.map Prod.fst).nodup_iff).2 (frequencyTable_fst_nodup _)
  refine ⟨root, hb, hstrict, hkeys, hnd, ?_⟩
  have htotal : ∀ b ∈ S, ∃ c, generateCodes root b = some c := by
    intro b hbS
    rw [generateCodes_isSome_iff, leafCodes_map_fst]
    exact (hkeys b).2 hbS
  unfold zip
  rw [hb]
  simp only [zipFrom, zipFromRoot, encodeLoop_total _ _ _ htotal, List.nil_append, encodeWith]

/-! ## Concrete runs -/

theorem mergeLoop_singleton (tie : Tie) (x : HuffmanNode) : mergeLoop tie [x] = some [x] := by
  simp [mergeLoop, mergeLoopFuel]

theorem pqTop_of_candidates (tie : Tie) (pq : List HuffmanNode) (x : HuffmanNode)
    (h : topCandidates pq = [x]) : pqTop tie pq = some x := by
  simp [pqTop, h, Nat.mod_one]

theorem zip_of_buildTree (tie : Tie) (input : Str) (root : HuffmanNode)
    (h : buildTree tie input = some root) :
    zip tie input = some (zipFromRoot root input) := by
  unfold zip
  rw [h]
  rfl

set_option maxRecDepth 100000 in
theorem seedQueue_zzzz :
    seedQueue (countFrequencies [122, 122, 122, 122]) = [mk 122 4 nullptr nullptr] := by
  decide

set_option maxRecDepth 100000 in
theorem seedQueue_aaab :
    seedQueue (countFrequencies [97, 97, 97, 98])
      = [mk 97 3 nullptr nullptr, mk 98 1 nullptr nullptr] := by
  decide

theorem buildTree_zzzz (tie : Tie) :
    buildTree tie [122, 122, 122, 122] = some (mk 122 4 nullptr nullptr) := by
  unfold buildTree
  rw [seedQueue_zzzz, rootOfQueue_eq tie _ _ (mergeLoop_singleton tie _)]
  exact pqTop_singleton tie _

theorem mergeStep_aaab (tie : Tie) :
    mergeStep tie [mk 97 3 nullptr nullptr, mk 98 1 nullptr nullptr]
      = some [mk 0 4 (mk 98 1 nullptr nullptr) (mk 97 3 nullptr nullptr)] := by
  have h1 : pqTop tie [mk 97 3 nullptr nullptr, mk 98 1 nullptr nullptr]
      = some (mk 98 1 nullptr nullptr) := pqTop_of_candidates tie _ _ (by decide)
  have h2 : pqPop tie [mk 97 3 nullptr nullptr, mk 98 1 nullptr nullptr]
      = [mk 97 3 nullptr nullptr] := by
    unfold pqPop; rw [h1]; decide
  have h3 : pqPop tie [mk 97 3 nullptr nullptr] = [] := by
    unfold pqPop; rw [pqTop_singleton]; decide
  unfold mergeStep
  rw [h1]
  simp only [h2, pqTop_singleton, h3]
  decide

theorem buildTree_aaab (tie : Tie) :
    buildTree tie [97, 97, 97, 98]
      = some (mk 0 4 (mk 98 1 nullptr nullptr) (mk 97 3 nullptr nullptr)) := by
  have hloop : mergeLoop tie [mk 97 3 nullptr nullptr, mk 98 1 nullptr nullptr]
      = some [mk 0 4 (mk 98 1 nullptr nullptr) (mk 97 3 nullptr nullptr)] := by
    simp [mergeLoop, mergeLoopFuel, mergeStep_aaab]
  unfold buildTree
  rw [seedQueue_aaab, rootOfQueue_eq tie _ _ hloop]
  exact pqTop_singleton tie _

theorem zip_eq_some (tie : Tie) (S : Str) (r : ZipResult) (h : zip tie S = some r) :
    ∃ root, buildTree tie S = some root ∧ r = zipFromRoot root S := by
  unfold zip at h
  cases hb : buildTree tie S with
  | none => rw [hb] at h; cases h
  | some root =>
    rw [hb] at h
    exact ⟨root, rfl, (Option.some.inj h).symm⟩

theorem generateCodes_prefixFree (root : HuffmanNode) (a b : Byte) (ca cb : Str) (hab : a ≠ b)
    (ha : generateCodes root a = some ca) (hb : generateCodes root b = some cb) :
    ¬ ca <+: cb := by
  have hsymm : Symmetric (fun x y : Byte × Str => ¬ x.2 <+: y.2 ∧ ¬ y.2 <+: x.2) :=
    fun x y h => ⟨h.2, h.1⟩
  have hne : ((a, ca) : Byte × Str) ≠ (b, cb) := fun e => hab (congrArg Prod.fst e)
  exact ((leafCodes_pairwise root []).forall hsymm
    (generateCodes_eq_some root a ca ha) (generateCodes_eq_some root b cb hb) hne).1

theorem countFrequencies_nil (b : Byte) : countFrequencies [] b = 0 := rfl

theorem seedQueue_nil : seedQueue (countFrequencies []) = [] := by
  rw [seedQueue_eq, List.map_eq_nil_iff, List.filter_eq_nil_iff]
  intro b _
  simp [countFrequencies_nil]

theorem zip_zzzz (tie : Tie) :
    zip tie [122, 122, 122, 122]
      = some (zipFromRoot (mk 122 4 nullptr nullptr) [122, 122, 122, 122]) :=
  zip_of_buildTree tie _ _ (buildTree_zzzz tie)

theorem generated_zzzz :
    (zipFromRoot (mk 122 4 nullptr nullptr) [122, 122, 122, 122]).generated 122 = some [] := by
  decide

theorem encodedData_zzzz :
    (zipFromRoot (mk 122 4 nullptr nullptr) [122, 122, 122, 122]).encodedData = [] := by
  decide

theorem zip_aaab (tie : Tie) :
    zip tie [97, 97, 97, 98]
      = some (zipFromRoot (mk 0 4 (mk 98 1 nullptr nullptr) (mk 97 3 nullptr nullptr))
          [97, 97, 97, 98]) :=
  zip_of_buildTree tie _ _ (buildTree_aaab tie)

theorem encodedData_aaab :
    (zipFromRoot (mk 0 4 (mk 98 1 nullptr nullptr) (mk 97 3 nullptr nullptr))
      [97, 97, 97, 98]).encodedData = [49, 49, 49, 48] := by
  decide

theorem generated_aaab (b : Byte) :
    (zipFromRoot (mk 0 4 (mk 98 1 nullptr nullptr) (mk 97 3 nullptr nullptr))
      [97, 97, 97, 98]).generated b
      = if b = 98 then some [48] else if b = 97 then some [49] else none := by
  simp only [zipFromRoot, generateCodes, buildHuffmanCodes, CodeMap.set]
  by_cases h1 : b = 98
  · subst h1; decide
  · by_cases h2 : b = 97
    · subst h2; decide
    · simp [CodeMap.set, h1, h2]

theorem countFrequencies_aaab (b : Byte) :
    countFrequencies [97, 97, 97, 98] b = if b = 97 then 3 else if b = 98 then 1 else 0 := by
  rw [countFrequencies_of_short _ (by decide)]
  by_cases h1 : b = 97
  · subst h1; decide
  · by_cases h2 : b = 98
    · subst h2; decide
    · have e1 : ¬ (97 : Byte) = b := fun e => h1 e.symm
      have e2 : ¬ (98 : Byte) = b := fun e => h2 e.symm
      simp [h1, h2, List.count_cons, e1, e2]

/-! ## An input too long for the `int` counters -/

theorem countFrequencies_longInput (c : Byte) :
    countFrequencies longInput c
      = if c = 98 then 1 else if c = 97 then -2147483648 else 0 := by
  rw [countFrequencies_apply, longInput, List.count_append, List.count_replicate]
  by_cases h1 : c = 98
  · subst h1
    have : ((97 : Byte) == 98) = false := by decide
    rw [this]
    decide
  · by_cases h2 : c = 97
    · subst h2
      have e : ((97 : Byte) == 97) = true := by decide
      rw [e]
      decide
    · have e1 : ((97 : Byte) == c) = false := by
        simp only [beq_eq_false_iff_ne, ne_eq]; exact fun e => h2 e.symm
      have e2 : ¬ (98 : Byte) = c := fun e => h1 e.symm
      rw [e1]
      simp [h1, h2, List.count_cons, e2, wrapInt]

theorem eq_singleton_of_nodup {α : Type} (l : List α) (y : α) (hnd : l.Nodup)
    (h : ∀ x, x ∈ l ↔ x = y) : l = [y] :=
  List.perm_singleton.1
    ((List.perm_ext_iff_of_nodup hnd (List.nodup_singleton y)).2 (fun x => by simp [h x]))

theorem seedQueue_longInput :
    seedQueue (countFrequencies longInput) = [mk 98 1 nullptr nullptr] := by
  apply eq_singleton_of_nodup _ _ (seedQueue_nodup _)
  intro x
  rw [mem_seedQueue]
  constructor
  · rintro ⟨c, hpos, rfl⟩
    rw [countFrequencies_longInput] at hpos
    by_cases h1 : c = 98
    · subst h1
      simp only [leafNode, countFrequencies_longInput, if_true]
    · by_cases h2 : c = 97
      · simp [h1, h2] at hpos
      · simp [h1, h2] at hpos
  · rintro rfl
    refine ⟨98, ?_, ?_⟩
    · rw [countFrequencies_longInput]; decide
    · simp only [leafNode, countFrequencies_longInput, if_true]

theorem zip_longInput (tie : Tie) :
    zip tie longInput = some (zipFromRoot (mk 98 1 nullptr nullptr) longInput) := by
  apply zip_of_buildTree
  unfold buildTree
  rw [seedQueue_longInput, rootOfQueue_eq tie _ _ (mergeLoop_singleton tie _)]
  exact pqTop_singleton tie _

theorem generated_longInput :
    (zipFromRoot (mk 98 1 nullptr nullptr) longInput).generated 97 = none := by
  have h : (zipFromRoot (mk 98 1 nullptr nullptr) longInput).generated
      = generateCodes (mk 98 1 nullptr nullptr) := rfl
  rw [h]
  decide

theorem mem_longInput : (97 : Byte) ∈ longInput := by
  unfold longInput
  rw [List.mem_append, List.mem_replicate]
  exact Or.inl ⟨by decide, rfl⟩

/-! ## The decoder -/

theorem decodeLoop_cons_some (M : DecodeMap) (cur out rest : Str) (bit ch : Byte)
    (h : M (cur ++ [bit]) = some ch) :
    decodeLoop M cur out (bit :: rest) = decodeLoop M [] (out ++ [ch]) rest := by
  rw [decodeLoop]; simp only [h]

theorem decodeLoop_cons_none (M : DecodeMap) (cur out rest : Str) (bit : Byte)
    (h : M (cur ++ [bit]) = none) :
    decodeLoop M cur out (bit :: rest) = decodeLoop M (cur ++ [bit]) out rest := by
  rw [decodeLoop]; simp only [h]

/-- Reading the rest of a code word `w` of a prefix-free map: nothing matches
before its last digit, where its byte is written and the candidate is
cleared. -/
theorem decodeLoop_codeword (M : DecodeMap) (hpf : PrefixFree M) (w : Str) (b : Byte)
    (hw : M w = some b) (suffix : Str) :
    ∀ (cur out rest : Str), cur ++ suffix = w → suffix ≠ [] →
      decodeLoop M cur out (suffix ++ rest) = decodeLoop M [] (out ++ [b]) rest := by
  induction suffix with
  | nil => intro _ _ _ _ h; exact absurd rfl h
  | cons bit suffix ih =>
    intro cur out rest hcur _
    have hcur2 : (cur ++ [bit]) ++ suffix = w := by simpa using hcur
    by_cases hs : suffix = []
    · subst hs
      rw [List.append_nil] at hcur2
      rw [List.cons_append, List.nil_append]
      exact decodeLoop_cons_some M cur out rest bit b (hcur2 ▸ hw)
    · have hnone : M (cur ++ [bit]) = none := by
        cases hm : M (cur ++ [bit]) with
        | none => rfl
        | some b' =>
          exfalso
          have hpre : cur ++ [bit] <+: w := ⟨suffix, hcur2⟩
          have heq := hpf _ _ _ _ hm hw hpre
          rw [← heq] at hcur2
          exact hs (List.append_right_eq_self.1 hcur2)
      rw [List.cons_append, decodeLoop_cons_none M cur out _ bit hnone]
      exact ih (cur ++ [bit]) out rest hcur2 hs

/-- The decoder on a concatenation of non-empty code words of a prefix-free
map writes their bytes in order and is back at the empty candidate. -/
theorem decodeLoop_codewords (M : DecodeMap) (hpf : PrefixFree M) (ws : List (Str × Byte))
    (h : ∀ p ∈ ws, p.1 ≠ [] ∧ M p.1 = some p.2) (out rest : Str) :
    decodeLoop M [] out ((ws.map Prod.fst).flatten ++ rest)
      = decodeLoop M [] (out ++ ws.map Prod.snd) rest := by
  induction ws generalizing out with
  | nil => simp
  | cons p ws ih =>
    obtain ⟨hne, hp⟩ := h p (by simp)
    have hws : ∀ q ∈ ws, q.1 ≠ [] ∧ M q.1 = some q.2 := fun q hq => h q (by simp [hq])
    rw [List.map_cons, List.flatten_cons, List.append_assoc,
      decodeLoop_codeword M hpf p.1 p.2 hp p.1 [] out _ (List.nil_append _) hne, ih hws]
    simp

theorem decodeLoop_nil (M : DecodeMap) (cur out : Str) :
    decodeLoop M cur out [] = (out, cur) := by
  rw [decodeLoop]

/-- The decoder inverts the encoder when the map inverts the table and is
prefix-free with non-empty code words. -/
theorem decode_encodeWith (M : DecodeMap) (G : CodeMap) (hpf : PrefixFree M) (S : Str)
    (h : ∀ b ∈ S, ∃ c, G b = some c ∧ c ≠ [] ∧ M c = some b) :
    decodeLoop M [] [] (encodeWith G S) = (S, []) := by
  have hws : ∀ p ∈ S.map (fun b => ((G b).getD [], b)), p.1 ≠ [] ∧ M p.1 = some p.2 := by
    intro p hp
    obtain ⟨b, hb, rfl⟩ := List.mem_map.1 hp
    obtain ⟨c, hc, hne, hm⟩ := h b hb
    simp only [hc, Option.getD_some]
    exact ⟨hne, hm⟩
  have := decodeLoop_codewords M hpf _ hws [] []
  simp only [List.map_map, List.append_nil, List.nil_append] at this
  have e1 : (Prod.fst ∘ fun b => ((G b).getD [], b)) = fun b => (G b).getD [] := rfl
  have e2 : (Prod.snd ∘ fun b => ((G b).getD ([] : Str), b)) = id := rfl
  rw [e1, e2, List.map_id, decodeLoop_nil] at this
  exact this

/-- Every byte the decoder writes is a value of the map. -/
theorem decodeLoop_output (M : DecodeMap) (data : Str) :
    ∀ (cur out : Str), ∀ x ∈ (decodeLoop M cur out data).1,
      x ∈ out ∨ ∃ code, M code = some x := by
  induction data with
  | nil => intro cur out x hx; rw [decodeLoop_nil] at hx; exact Or.inl hx
  | cons bit rest ih =>
    intro cur out x hx
    cases hm : M (cur ++ [bit]) with
    | none =>
      rw [decodeLoop_cons_none M cur out rest bit hm] at hx
      exact ih _ _ x hx
    | some ch =>
      rw [decodeLoop_cons_some M cur out rest bit ch hm] at hx
      rcases ih _ _ x hx with h | h
      · rcases List.mem_append.1 h with h | h
        · exact Or.inl h
        · rw [List.mem_singleton] at h
          exact Or.inr ⟨_, h ▸ hm⟩
      · exact Or.inr h

/-! ## No newline byte comes out of `unzip` -/

theorem getlines_no_newline (text : Str) : ∀ l ∈ getlines text, chNewline ∉ l := by
  induction text with
  | nil => intro l hl; simp [getlines] at hl
  | cons c rest ih =>
    intro l hl
    by_cases hc : c = chNewline
    · simp only [getlines, hc, if_true, List.mem_cons] at hl
      rcases hl with rfl | hl
      · simp
      · exact ih l hl
    · have hc2 : ¬ chNewline = c := fun e => hc e.symm
      cases hg : getlines rest with
      | nil =>
        simp only [getlines, hc, if_false, hg, List.mem_singleton] at hl
        subst hl
        simp [hc2]
      | cons l0 ls =>
        simp only [getlines, hc, if_false, hg, List.mem_cons] at hl
        rcases hl with rfl | hl
        · have := ih l0 (by simp [hg])
          simp [hc2, this]
        · exact ih l (by simp [hg, hl])

theorem parseEntry_values (line : Str) (M : DecodeMap) (hl : chNewline ∉ line)
    (hM : ∀ code b, M code = some b → b ≠ chNewline) :
    ∀ code b, parseEntry line M code = some b → b ≠ chNewline := by
  intro code b h
  unfold parseEntry at h
  by_cases hc : line.length ≥ 3 ∧ line.get? 1 = some chColon
  · rw [if_pos hc] at h
    unfold DecodeMap.set at h
    by_cases he : code = line.drop 2
    · rw [if_pos he] at h
      cases line with
      | nil => simp at hc
      | cons c t =>
        simp only [List.headD_cons, Option.some.injEq] at h
        subst h
        intro e
        exact hl (by simp [e])
    · rw [if_neg he] at h
      exact hM code b h
  · rw [if_neg hc] at h
    exact hM code b h

theorem readEntries_values (lines : List Str) (M : DecodeMap)
    (hl : ∀ l ∈ lines, chNewline ∉ l)
    (hM : ∀ code b, M code = some b → b ≠ chNewline) :
    ∀ code b, (readEntries lines M).2 code = some b → b ≠ chNewline := by
  induction lines generalizing M with
  | nil => simpa [readEntries] using hM
  | cons line rest ih =>
    by_cases hd : line = dataHeader
    · simpa [readEntries, hd] using hM
    · rw [readEntries, if_neg hd]
      exact ih _ (fun l h => hl l (by simp [h]))
        (parseEntry_values line M (hl line (by simp)) hM)

/-- Whatever the text, `unzip` never writes a newline byte: no table line
can name it. -/
theorem unzip_output_no_newline (text : Str) : chNewline ∉ (unzip text).output := by
  unfold unzip
  cases hp : parseFile text with
  | none => simp
  | some p =>
    unfold parseFile at hp
    by_cases hh : (getline (getlines text) []).2.1 ≠ codesHeader
    · simp [hh] at hp
    · simp only [hh, if_false, Option.some.injEq] at hp
      subst hp
      intro hmem
      rcases decodeLoop_output _ _ _ _ _ hmem with h | ⟨code, h⟩
      · simp at h
      · refine readEntries_values _ _ ?_ (by simp) code _ h rfl
        intro l hl
        apply getlines_no_newline text l
        cases hg : getlines text with
        | nil => rw [hg] at hl; simp [getline] at hl
        | cons l0 ls => rw [hg] at hl; simp only [getline] at hl; simp [hl]

/-! ## From the input to the output file and back -/

theorem add_128_add_128 (x : Byte) : x + 128 + 128 = x := by
  apply Fin.ext
  have h := x.isLt
  simp only [Fin.val_add]
  have e : ((128 : Byte) : Nat) = 128 := rfl
  rw [e]
  omega

theorem mem_charOrder (b : Byte) : b ∈ charOrder := by
  unfold charOrder
  rw [List.mem_map]
  exact ⟨b + 128, mem_byteValues _, add_128_add_128 b⟩

theorem nodup_charOrder : charOrder.Nodup := by
  unfold charOrder
  refine nodup_byteValues.map ?_
  intro a b h
  have : a + 128 + 128 = b + 128 + 128 := congrArg (· + 128) h
  rwa [add_128_add_128 a, add_128_add_128 b] at this

theorem mem_entries (m : CodeMap) (b : Byte) (c : Str) :
    (b, c) ∈ m.entries ↔ m b = some c := by
  unfold CodeMap.entries
  rw [List.mem_filterMap]
  constructor
  · rintro ⟨k, -, hk⟩
    cases hm : m k with
    | none => rw [hm] at hk; cases hk
    | some c' =>
      rw [hm] at hk
      simp only [Option.map_some', Option.some.injEq, Prod.mk.injEq] at hk
      rw [← hk.1, ← hk.2]
      exact hm
  · intro h
    exact ⟨b, mem_charOrder b, by rw [h]; rfl⟩

theorem entries_snd_nodup (m : CodeMap)
    (hinj : ∀ a b c, m a = some c → m b = some c → a = b) :
    (m.entries.map Prod.snd).Nodup := by
  unfold CodeMap.entries
  rw [List.map_filterMap]
  refine nodup_charOrder.filterMap ?_
  intro a a' c ha ha'
  cases hm : m a with
  | none => rw [hm] at ha; cases ha
  | some x =>
    cases hm' : m a' with
    | none => rw [hm'] at ha'; cases ha'
    | some x' =>
      rw [hm] at ha
      rw [hm'] at ha'
      simp only [Option.map_some', Option.mem_def, Option.some.injEq] at ha ha'
      exact hinj a a' c (by rw [hm, ha]) (by rw [hm', ha'])

/-- The code words below a node are the accumulated code followed by digits
`0` and `1` only. -/
theorem leafCodes_bits (node : HuffmanNode) (code : Str) :
    ∀ e ∈ leafCodes node code, ∀ ch ∈ e.2, ch ∈ code ∨ ch = chZero ∨ ch = chOne := by
  induction node generalizing code with
  | nullptr => intro e he; simp [leafCodes] at he
  | mk character frequency left right ihl ihr =>
    intro e he ch hch
    rw [leafCodes] at he
    rcases List.mem_append.1 he with he | he
    · rcases List.mem_append.1 he with he | he
      · by_cases h : left = nullptr ∧ right = nullptr
        · simp only [h, and_self, if_true, List.mem_singleton] at he
          subst he
          exact Or.inl hch
        · simp [h] at he
      · rcases ihl _ e he ch hch with h | h
        · rcases List.mem_append.1 h with h | h
          · exact Or.inl h
          · exact Or.inr (Or.inl (List.mem_singleton.1 h))
        · exact Or.inr h
    · rcases ihr _ e he ch hch with h | h
      · rcases List.mem_append.1 h with h | h
        · exact Or.inl h
        · exact Or.inr (Or.inr (List.mem_singleton.1 h))
      · exact Or.inr h

/-- With two different bytes among its leaves the root is no leaf, and every
code word has a first digit. -/
theorem leafCodes_ne_nil (root : HuffmanNode) (a b : Byte) (hab : a ≠ b)
    (ha : a ∈ (leaves root).map Prod.fst) (hb : b ∈ (leaves root).map Prod.fst) :
    ∀ e ∈ leafCodes root [], e.2 ≠ [] := by
  cases root with
  | nullptr => intro e he; simp [leafCodes] at he
  | mk character frequency left right =>
    by_cases h : left = nullptr ∧ right = nullptr
    · obtain ⟨rfl, rfl⟩ := h
      simp only [leaves, and_self, if_true, List.append_nil, List.map_cons, List.map_nil,
        List.mem_singleton] at ha hb
      exact absurd (ha.trans hb.symm) hab
    · intro e he
      rw [leafCodes] at he
      simp only [h, if_false, List.nil_append] at he
      rcases List.mem_append.1 he with he | he
      · have := leafCodes_extends left _ e he
        intro e0
        rw [e0] at this
        simp at this
      · have := leafCodes_extends right _ e he
        intro e0
        rw [e0] at this
        simp at this

/-- Compressing an input with two or more distinct byte values, none of them
the newline byte, shorter than 2^31 bytes, and decompressing the output file
restores the input, for every tie order. -/
theorem zip_unzip_roundtrip (tie : Tie) (S : Str) (a b : Byte) (hab : a ≠ b)
    (ha : a ∈ S) (hb : b ∈ S) (hnl : chNewline ∉ S) (hS : S.length < 2147483648) :
    ∃ r, zip tie S = some r ∧ unzip r.outputFile = { exitCode := 0, output := S } := by
  have hne : S ≠ [] := List.ne_nil_of_mem ha
  obtain ⟨root, -, -, hkeys, -, hz⟩ := zip_spec tie S hne hS
  refine ⟨_, hz, ?_⟩
  have hcodes : ∀ k c, generateCodes root k = some c →
      (k, c) ∈ leafCodes root [] := generateCodes_eq_some root
  have hkeyS : ∀ k c, generateCodes root k = some c → k ∈ S := by
    intro k c h
    rw [← hkeys, ← leafCodes_map_fst root []]
    exact List.mem_map.2 ⟨(k, c), hcodes k c h, rfl⟩
  have hnonempty : ∀ k c, generateCodes root k = some c → c ≠ [] := fun k c h =>
    leafCodes_ne_nil root a b hab ((hkeys a).2 ha) ((hkeys b).2 hb) _ (hcodes k c h)
  have hbits : ∀ k c, generateCodes root k = some c → chNewline ∉ c := by
    intro k c h hmem
    rcases leafCodes_bits root [] _ (hcodes k c h) _ hmem with h' | h' | h'
    · simp at h'
    · exact absurd h' (by decide)
    · exact absurd h' (by decide)
  have hinj : ∀ x y c, generateCodes root x = some c → generateCodes root y = some c →
      x = y := by
    intro x y c hx hy
    by_contra hxy
    exact generateCodes_prefixFree root x y c c hxy hx hy (List.prefix_refl c)
  have hM : ∀ code k, invertEntries (generateCodes root).entries code = some k ↔
      generateCodes root k = some code := by
    intro code k
    rw [invertEntries_eq_some_iff _ _ _ (entries_snd_nodup _ hinj), mem_entries]
  have hpf : PrefixFree (invertEntries (generateCodes root).entries) := by
    intro c1 c2 b1 b2 h1 h2 hpre
    rw [hM] at h1 h2
    by_cases hb12 : b1 = b2
    · subst hb12
      rw [h1] at h2
      exact Option.some.inj h2
    · exact absurd hpre (generateCodes_prefixFree root b1 b2 c1 c2 hb12 h1 h2)
  have hparse : parseFile (serialize (generateCodes root).entries
      (encodeWith (generateCodes root) S))
      = some (invertEntries (generateCodes root).entries,
          encodeWith (generateCodes root) S) := by
    apply parseFile_serialize
    · intro e he
      exact hnonempty e.1 e.2 ((mem_entries _ _ _).1 he)
    · intro e he hmem
      have hg := (mem_entries _ e.1 e.2).1 he
      simp only [entryText, List.mem_cons] at hmem
      rcases hmem with h | h | h
      · exact hnl (h ▸ hkeyS e.1 e.2 hg)
      · exact absurd h (by decide)
      · exact hbits e.1 e.2 hg h
    · intro hmem
      unfold encodeWith at hmem
      rw [List.mem_flatten] at hmem
      obtain ⟨l, hl, hmem⟩ := hmem
      obtain ⟨k, hk, rfl⟩ := List.mem_map.1 hl
      cases hg : generateCodes root k with
      | none => rw [hg] at hmem; simp at hmem
      | some c => rw [hg] at hmem; exact hbits k c hg hmem
  have hdec : decodeLoop (invertEntries (generateCodes root).entries) [] []
      (encodeWith (generateCodes root) S) = (S, []) := by
    apply decode_encodeWith _ _ hpf
    intro k hk
    have : k ∈ (leafCodes root []).map Prod.fst := by
      rw [leafCodes_map_fst]; exact (hkeys k).2 hk
    obtain ⟨c, hc⟩ := (generateCodes_isSome_iff root k).2 this
    exact ⟨c, hc, hnonempty k c hc, (hM c k).2 hc⟩
  show unzip (serialize (generateCodes root).entries (encodeWith (generateCodes root) S)) = _
  unfold unzip
  rw [hparse]
  simp only [decode, hdec]

/-! ## More on the decoder and the parser -/

theorem sampleTable_apply (c : Str) :
    sampleTable c = if c = [48] then some 98 else if c = [49] then some 97 else none := rfl

theorem sampleTable_prefixFree : PrefixFree sampleTable := by
  intro c1 c2 b1 b2 h1 h2 hpre
  rw [sampleTable_apply] at h1 h2
  have l1 : c1.length = 1 := by
    by_cases e : c1 = [48]
    · rw [e]; rfl
    · by_cases e' : c1 = [49]
      · rw [e']; rfl
      · simp [e, e'] at h1
  have l2 : c2.length = 1 := by
    by_cases e : c2 = [48]
    · rw [e]; rfl
    · by_cases e' : c2 = [49]
      · rw [e']; rfl
      · simp [e, e'] at h2
  exact hpre.eq_of_length (l1.trans l2.symm)

/-- A candidate that no digit of the stream completes to a code word stays
unmatched to the end: nothing is written and the stream is appended to it. -/
theorem decodeLoop_no_match (M : DecodeMap) (r : Str) :
    ∀ (cur out : Str), (∀ p, p <+: r → p ≠ [] → M (cur ++ p) = none) →
      decodeLoop M cur out r = (out, cur ++ r) := by
  induction r with
  | nil => intro cur out _; rw [decodeLoop_nil, List.append_nil]
  | cons bit rest ih =>
    intro cur out h
    have h1 : M (cur ++ [bit]) = none :=
      h [bit] ⟨rest, rfl⟩ (by simp)
    rw [decodeLoop_cons_none M cur out rest bit h1]
    have := ih (cur ++ [bit]) out (by
      intro p hp hne
      have hp' : bit :: p <+: bit :: rest := by
        obtain ⟨t, ht⟩ := hp
        exact ⟨t, by rw [← ht]; rfl⟩
      have := h (bit :: p) hp' (by simp)
      simpa using this)
    rw [this]
    simp

/-- The decoder writes at most one byte per character of the stream. -/
theorem decodeLoop_length (M : DecodeMap) (data : Str) :
    ∀ (cur out : Str), (decodeLoop M cur out data).1.length ≤ out.length + data.length := by
  induction data with
  | nil => intro cur out; rw [decodeLoop_nil]; simp
  | cons bit rest ih =>
    intro cur out
    cases hm : M (cur ++ [bit]) with
    | none =>
      rw [decodeLoop_cons_none M cur out rest bit hm]
      have := ih (cur ++ [bit]) out
      simp only [List.length_cons]
      omega
    | some ch =>
      rw [decodeLoop_cons_some M cur out rest bit ch hm]
      have := ih [] (out ++ [ch])
      simp only [List.length_append, List.length_singleton] at this
      simp only [List.length_cons]
      omega

theorem parseEntry_nil (line : Str) (M : DecodeMap) (hM : M [] = none) :
    parseEntry line M [] = none := by
  unfold parseEntry
  by_cases hc : line.length ≥ 3 ∧ line.get? 1 = some chColon
  · rw [if_pos hc]
    unfold DecodeMap.set
    have hne : ¬ ([] : Str) = line.drop 2 := by
      intro e
      have := congrArg List.length e
      simp only [List.length_nil, List.length_drop] at this
      omega
    rw [if_neg hne]
    exact hM
  · rw [if_neg hc]; exact hM

theorem readEntries_nil (lines : List Str) (M : DecodeMap) (hM : M [] = none) :
    (readEntries lines M).2 [] = none := by
  induction lines generalizing M with
  | nil => simpa [readEntries] using hM
  | cons line rest ih =>
    by_cases hd : line = dataHeader
    · simpa [readEntries, hd] using hM
    · rw [readEntries, if_neg hd]
      exact ih _ (parseEntry_nil line M hM)

/-- The table `parseFile` returns has no empty code word. -/
theorem parseFile_nil (text : Str) (M : DecodeMap) (D : Str)
    (h : parseFile text = some (M, D)) : M [] = none := by
  unfold parseFile at h
  by_cases hh : (getline (getlines text) []).2.1 ≠ codesHeader
  · simp [hh] at h
  · simp only [hh, if_false, Option.some.injEq, Prod.mk.injEq] at h
    rw [← h.1]
    exact readEntries_nil _ _ rfl

theorem unzip_of_parseFile (text : Str) (M : DecodeMap) (D : Str)
    (h : parseFile text = some (M, D)) :
    unzip text = { exitCode := 0, output := decode M D } := by
  unfold unzip
  rw [h]

theorem parseEntry_entry (ch : Byte) (c : Byte) (code : Str) (M : DecodeMap) :
    parseEntry (ch :: chColon :: c :: code) M = M.set (c :: code) ch := by
  simp [parseEntry]

theorem parseEntry_short (line : Str) (M : DecodeMap) (h : line.length < 3) :
    parseEntry line M = M := by
  unfold parseEntry
  rw [if_neg]
  intro hc
  omega

theorem parseEntry_no_colon (line : Str) (M : DecodeMap) (h : line.get? 1 ≠ some chColon) :
    parseEntry line M = M := by
  unfold parseEntry
  rw [if_neg]
  intro hc
  exact h hc.2

/-! ## Properties the merge loop keeps -/

/-- A property of the queue that every iteration of the merge loop keeps holds
for the queue of the root that `pq.top()` returns after the loop. -/
theorem rootOfQueue_invariant (tie : Tie) (Q : List HuffmanNode → Prop)
    (hQ : ∀ pq pq', 2 ≤ pq.length → Q pq → mergeStep tie pq = some pq' → Q pq')
    (pq : List HuffmanNode) (h : Q pq) (root : HuffmanNode)
    (hroot : rootOfQueue tie pq = some root) : Q [root] := by
  obtain ⟨pq', hrun, hq', hlen, -⟩ := mergeLoop_invariant tie Q hQ pq h
  rw [rootOfQueue_eq tie pq pq' hrun] at hroot
  have hmem := (pqTop_spec tie pq' root hroot).1
  match pq', hlen, hmem, hq' with
  | [x], _, hmem, hq' =>
    rw [List.mem_singleton] at hmem
    rw [hmem]
    exact hq'

theorem seedQueue_ne_nil_of_buildTree (tie : Tie) (S : Str) (root : HuffmanNode)
    (h : buildTree tie S = some root) : seedQueue (countFrequencies S) ≠ [] := by
  intro e
  rw [buildTree_of_no_seed tie S e] at h
  cases h

/-- Whatever the input, a root that `pq.top()` returns is a strict tree whose
leaves are the positive entries of the frequency table. -/
theorem buildTree_strict (tie : Tie) (S : Str) (root : HuffmanNode)
    (h : buildTree tie S = some root) :
    Strict root ∧ (leaves root).Perm (frequencyTable (countFrequencies S)) := by
  obtain ⟨root', h', hs, hp⟩ := buildTree_spec tie S (seedQueue_ne_nil_of_buildTree tie S root h)
  rw [h] at h'
  cases h'
  exact ⟨hs, hp⟩

theorem leftLe_leafNode (freq : Byte → Int) (i : Byte) : LeftLe (leafNode freq i) := by
  simp [leafNode, LeftLe]

theorem mergeStep_leftLe (tie : Tie) (pq pq' : List HuffmanNode) (h2 : 2 ≤ pq.length)
    (hp : ∀ x ∈ pq, LeftLe x) (hstep : mergeStep tie pq = some pq') :
    ∀ x ∈ pq', LeftLe x := by
  obtain ⟨left, right, pq2, hs, hperm, hmin, -⟩ := mergeStep_spec tie pq h2
  rw [hs] at hstep
  cases hstep
  intro x hx
  rcases List.mem_append.1 hx with hx | hx
  · exact hp _ (hperm.mem_iff.2 (by simp [hx]))
  · rw [List.mem_singleton] at hx
    subst hx
    exact ⟨fun _ _ => hmin right (by simp), hp _ (hperm.mem_iff.2 (by simp)),
      hp _ (hperm.mem_iff.2 (by simp))⟩

theorem buildTree_leftLe (tie : Tie) (S : Str) (root : HuffmanNode)
    (h : buildTree tie S = some root) : LeftLe root := by
  have := rootOfQueue_invariant tie (fun q => ∀ x ∈ q, LeftLe x)
    (fun q q' h2 hq hstep => mergeStep_leftLe tie q q' h2 hq hstep)
    (seedQueue (countFrequencies S))
    (by
      intro x hx
      obtain ⟨b, -, rfl⟩ := (mem_seedQueue _ x).1 hx
      exact leftLe_leafNode _ b)
    root h
  exact this root (by simp)

theorem buildTree_isSome (tie : Tie) (S : Str) (hne : S ≠ []) (hS : S.length < 2147483648) :
    ∃ root, buildTree tie S = some root := by
  obtain ⟨root, h, -⟩ := buildTree_spec tie S (seedQueue_ne_nil S hne hS)
  exact ⟨root, h⟩

/-! ## Height and code word length -/

theorem leaves_ne_nil_of_strict (x : HuffmanNode) (h : Strict x) : 1 ≤ (leaves x).length := by
  cases x with
  | nullptr => exact absurd h (by simp [Strict])
  | mk c f l r =>
    by_cases hl : l = nullptr ∧ r = nullptr
    · simp [leaves, hl]
    · rw [leaves]
      simp only [List.length_append]
      rw [if_neg hl]
      rcases h with h | h
      · exact absurd h hl
      · have := leaves_ne_nil_of_strict l h.1
        simp only [List.length_nil]
        omega

theorem height_lt_leaves (x : HuffmanNode) (h : Strict x) :
    height x + 1 ≤ (leaves x).length := by
  induction x with
  | nullptr => exact absurd h (by simp [Strict])
  | mk c f l r ihl ihr =>
    by_cases hl : l = nullptr ∧ r = nullptr
    · simp [leaves, height, hl]
    · rcases h with h | h
      · exact absurd h hl
      · have h1 := ihl h.1
        have h2 := ihr h.2
        rw [leaves, height, if_neg hl, if_neg hl]
        simp only [List.length_append, List.length_nil]
        omega

theorem leafCodes_length (node : HuffmanNode) (code : Str) :
    ∀ e ∈ leafCodes node code, e.2.length ≤ code.length + height node := by
  induction node generalizing code with
  | nullptr => intro e he; simp [leafCodes] at he
  | mk c f l r ihl ihr =>
    intro e he
    rw [leafCodes] at he
    by_cases hl : l = nullptr ∧ r = nullptr
    · obtain ⟨rfl, rfl⟩ := hl
      simp only [and_self, if_true, leafCodes, List.append_nil, List.mem_singleton] at he
      rw [he]
      simp
    · rw [if_neg hl, List.nil_append] at he
      rw [height, if_neg hl]
      rcases List.mem_append.1 he with he | he
      · have := ihl _ e he
        simp only [List.length_append, List.length_singleton] at this
        omega
      · have := ihr _ e he
        simp only [List.length_append, List.length_singleton] at this
        omega

theorem countFrequencies_pos_mem (S : Str) (b : Byte) (h : 0 < countFrequencies S b) :
    b ∈ S := by
  rw [countFrequencies_apply] at h
  rw [← List.count_pos_iff]
  by_contra hc
  have : S.count b = 0 := by omega
  rw [this] at h
  exact absurd h (by decide)

theorem dedup_length_le (S : Str) : S.dedup.length ≤ 256 := by
  have := (List.nodup_dedup S).length_le_card
  rw [Fintype.card_fin] at this
  exact this

/-- The tree has at most as many leaves as the input has distinct bytes. -/
theorem leaves_length_le (tie : Tie) (S : Str) (root : HuffmanNode)
    (h : buildTree tie S = some root) : (leaves root).length ≤ S.dedup.length := by
  obtain ⟨-, hp⟩ := buildTree_strict tie S root h
  have h1 : (leaves root).length = ((frequencyTable (countFrequencies S)).map Prod.fst).length := by
    rw [List.length_map]; exact hp.length_eq
  rw [h1]
  apply (List.subperm_of_subset (frequencyTable_fst_nodup _) ?_).length_le
  intro b hb
  rw [mem_frequencyTable_fst] at hb
  exact List.mem_dedup.2 (countFrequencies_pos_mem S b hb)

/-! ## The number of merges -/

theorem mergeLoopFuel_eq_iterateMerge (tie : Tie) :
    ∀ (fuel : Nat) (pq : List HuffmanNode), pq.length ≤ fuel + 1 → pq ≠ [] →
      mergeLoopFuel tie fuel pq = iterateMerge tie (pq.length - 1) pq := by
  intro fuel
  induction fuel with
  | zero =>
    intro pq hlen hne
    have h1 : pq.length = 1 := by
      have := List.length_pos.2 hne
      omega
    have h2 : ¬ pq.length > 1 := by omega
    simp [mergeLoopFuel, h2, h1, iterateMerge]
  | succ fuel ih =>
    intro pq hlen hne
    by_cases h1 : pq.length > 1
    · obtain ⟨left, right, pq2, hstep, hperm, -, -⟩ := mergeStep_spec tie pq h1
      have hlen2 : pq2.length + 2 = pq.length := by
        have := hperm.length_eq; simp at this; omega
      have hk : pq.length - 1 = (pq2.length) + 1 := by omega
      rw [mergeLoopFuel, if_pos h1, hstep, hk, iterateMerge, if_pos h1, hstep]
      have := ih (pq2 ++ [mk 0 (wrapInt (left.frequency + right.frequency)) left right])
        (by simp; omega) (by simp)
      simpa using this
    · have h2 : pq.length = 1 := by
        have := List.length_pos.2 hne
        omega
      simp [mergeLoopFuel, h1, h2, iterateMerge]

theorem seedQueue_length (freq : Byte → Int) :
    (seedQueue freq).length = (frequencyTable freq).length := by
  rw [seedQueue_eq, frequencyTable, List.length_map, List.length_map]

/-- For an input the counters can count, the positive entries of the
frequency table are the distinct bytes of the input with their numbers of
occurrences. -/
theorem frequencyTable_perm (S : Str) (hS : S.length < 2147483648) :
    (frequencyTable (countFrequencies S)).Perm
      (S.dedup.map (fun b => (b, (S.count b : Int)))) := by
  have hp : (byteValues.filter (fun i => decide (countFrequencies S i > 0))).Perm S.dedup := by
    rw [List.perm_ext_iff_of_nodup (nodup_byteValues.filter _) (List.nodup_dedup S)]
    intro b
    rw [List.mem_filter, List.mem_dedup, decide_eq_true_eq]
    constructor
    · intro h; exact (countFrequencies_pos_iff S hS b).1 h.2
    · intro h; exact ⟨mem_byteValues b, (countFrequencies_pos_iff S hS b).2 h⟩
  unfold frequencyTable
  refine (hp.map _).trans ?_
  rw [List.map_congr_left (fun b _ => by rw [countFrequencies_of_short S hS b])]

theorem sum_counts (S : Str) :
    ((S.dedup.map (fun b => (b, (S.count b : Int)))).map Prod.snd).sum = (S.length : Int) := by
  rw [List.map_map]
  have : (Prod.snd ∘ fun b => (b, (S.count b : Int))) = fun b => ((S.count b : Nat) : Int) := rfl
  rw [this]
  have h := List.sum_map_count_dedup_eq_length S
  have h2 : (S.dedup.map (fun b => ((S.count b : Nat) : Int))).sum
      = (((S.dedup.map (fun b => S.count b)).sum : Nat) : Int) := by
    induction S.dedup with
    | nil => simp
    | cons a l ih => simp [ih]
  rw [h2, h]

/-! ## Frequencies in the tree -/

theorem leafSum_parent (c : Byte) (f : Int) (left right : HuffmanNode)
    (hl : left ≠ nullptr) : leafSum (mk c f left right) = leafSum left + leafSum right := by
  unfold leafSum
  rw [leaves_parent c f left right hl, List.map_append, List.sum_append]

theorem sum_flatMap_leaves (pq : List HuffmanNode) :
    (((pq.flatMap leaves).map Prod.snd).sum : Int) = (pq.map leafSum).sum := by
  induction pq with
  | nil => rfl
  | cons x pq ih =>
    rw [List.flatMap_cons, List.map_append, List.sum_append, ih, List.map_cons, List.sum_cons]
    rfl

theorem mergeStep_sumsQueue (tie : Tie) (L : List (Byte × Int))
    (hpos : ∀ e ∈ L, 0 < e.2) (htotal : (L.map Prod.snd).sum < 2147483648)
    (pq pq' : List HuffmanNode) (h2 : 2 ≤ pq.length) (hq : SumsQueue L pq)
    (hstep : mergeStep tie pq = some pq') : SumsQueue L pq' := by
  have hsl := mergeStep_strict_leaves tie L pq pq' h2 ⟨fun x hx => (hq.1 x hx).1, hq.2⟩ hstep
  obtain ⟨left, right, pq2, hs, hperm, -, -⟩ := mergeStep_spec tie pq h2
  rw [hs] at hstep
  cases hstep
  have hL := hq.1 left (hperm.mem_iff.2 (by simp))
  have hR := hq.1 right (hperm.mem_iff.2 (by simp))
  -- the sum of all leaves of the queue
  have hsum : (L.map Prod.snd).sum = leafSum left + leafSum right + (pq2.map leafSum).sum := by
    rw [← (hq.2.map Prod.snd).sum_eq, sum_flatMap_leaves, (hperm.map leafSum).sum_eq]
    simp only [List.map_cons, List.sum_cons]
    ring
  have hnonneg : ∀ x ∈ pq, 0 ≤ leafSum x := by
    intro x hx
    apply List.sum_nonneg
    intro v hv
    obtain ⟨e, he, rfl⟩ := List.mem_map.1 hv
    have : e ∈ pq.flatMap leaves := List.mem_flatMap.2 ⟨x, hx, he⟩
    exact le_of_lt (hpos e (hq.2.mem_iff.1 this))
  have hrest : 0 ≤ (pq2.map leafSum).sum := by
    apply List.sum_nonneg
    intro v hv
    obtain ⟨x, hx, rfl⟩ := List.mem_map.1 hv
    exact hnonneg x (hperm.mem_iff.2 (by simp [hx]))
  have hl0 := hnonneg left (hperm.mem_iff.2 (by simp))
  have hr0 := hnonneg right (hperm.mem_iff.2 (by simp))
  have hexact : wrapInt (left.frequency + right.frequency)
      = left.frequency + right.frequency := by
    apply wrapInt_of_range
    · rw [hL.2.2, hR.2.2]; omega
    · rw [hL.2.2, hR.2.2]; omega
  refine ⟨?_, hsl.2⟩
  intro x hx
  rcases List.mem_append.1 hx with hx | hx
  · exact hq.1 x (hperm.mem_iff.2 (by simp [hx]))
  · rw [List.mem_singleton] at hx
    subst hx
    have hls : leafSum (mk 0 (wrapInt (left.frequency + right.frequency)) left right)
        = left.frequency + right.frequency := by
      rw [leafSum_parent _ _ _ _ hL.1.ne_nullptr, hL.2.2, hR.2.2]
    refine ⟨hsl.1 _ (by simp), ?_, ?_⟩
    · refine Or.inr ⟨hexact, ?_, ?_, ?_, hL.2.1, hR.2.1⟩
      · rw [hL.2.2, hR.2.2]; omega
      · rw [hL.2.2, hR.2.2]; omega
      · rw [hls]; exact hexact
    · show wrapInt (left.frequency + right.frequency) = _
      rw [hls]; exact hexact

theorem seedQueue_sumsQueue (freq : Byte → Int) :
    SumsQueue (frequencyTable freq) (seedQueue freq) := by
  refine ⟨?_, by rw [seedQueue_leaves]⟩
  intro x hx
  obtain ⟨b, -, rfl⟩ := (mem_seedQueue _ x).1 hx
  refine ⟨strict_leafNode _ b, ?_, ?_⟩
  · simp [leafNode, SumsExact]
  · simp [leafNode, leafSum, leaves, HuffmanNode.frequency]

/-- For a non-empty input shorter than 2^31 bytes the merge loop builds a
tree with exact sums whose root has the length of the input as frequency. -/
theorem buildTree_sums (tie : Tie) (S : Str) (hne : S ≠ []) (hS : S.length < 2147483648) :
    ∃ root, buildTree tie S = some root ∧ Strict root ∧ SumsExact root ∧
      root.frequency = (S.length : Int) ∧
      (leaves root).Perm (S.dedup.map (fun b => (b, (S.count b : Int)))) := by
  obtain ⟨root, hb⟩ := buildTree_isSome tie S hne hS
  have hperm := frequencyTable_perm S hS
  have htot : ((frequencyTable (countFrequencies S)).map Prod.snd).sum = (S.length : Int) := by
    rw [(hperm.map Prod.snd).sum_eq, sum_counts]
  have hpos : ∀ e ∈ frequencyTable (countFrequencies S), 0 < e.2 := by
    intro e he
    have := hperm.mem_iff.1 he
    obtain ⟨b, hbm, rfl⟩ := List.mem_map.1 this
    have : 0 < S.count b := List.count_pos_iff.2 (List.mem_dedup.1 hbm)
    show (0 : Int) < (S.count b : Int)
    exact_mod_cast this
  have hq := rootOfQueue_invariant tie (SumsQueue (frequencyTable (countFrequencies S)))
    (mergeStep_sumsQueue tie _ hpos (by rw [htot]; exact_mod_cast hS))
    (seedQueue (countFrequencies S)) (seedQueue_sumsQueue _) root hb
  obtain ⟨hx, hl⟩ := hq
  obtain ⟨hstrict, hexact, hfreq⟩ := hx root (by simp)
  have hl' : (leaves root).Perm (frequencyTable (countFrequencies S)) := by
    simpa using hl
  refine ⟨root, hb, hstrict, hexact, ?_, hl'.trans hperm⟩
  rw [hfreq, leafSum, (hl'.map Prod.snd).sum_eq, htot]

theorem iterateMerge_of_rootOfQueue (tie : Tie) (q : List HuffmanNode) (root : HuffmanNode)
    (hne : q ≠ []) (h : rootOfQueue tie q = some root) :
    iterateMerge tie (q.length - 1) q = some [root] := by
  obtain ⟨pq', hrun, hlen', -⟩ := mergeLoop_terminates tie q
  have hroot : pqTop tie pq' = some root := by
    rw [← rootOfQueue_eq tie _ pq' hrun]; exact h
  have hmem := (pqTop_spec tie pq' root hroot).1
  have hpq : pq' = [root] := by
    match pq', hlen', hmem with
    | [x], _, hmem => rw [List.mem_singleton] at hmem; rw [hmem]
  have heq := mergeLoopFuel_eq_iterateMerge tie q.length q (Nat.le_succ _) hne
  unfold mergeLoop at hrun
  rw [← heq, hrun, hpq]

theorem iterateMerge_seedQueue (tie : Tie) (S : Str) (hS : S.length < 2147483648)
    (root : HuffmanNode) (h : buildTree tie S = some root) :
    iterateMerge tie (S.dedup.length - 1) (seedQueue (countFrequencies S)) = some [root] := by
  have hne := seedQueue_ne_nil_of_buildTree tie S root h
  have hlen : (seedQueue (countFrequencies S)).length = S.dedup.length := by
    rw [seedQueue_length, (frequencyTable_perm S hS).length_eq, List.length_map]
  rw [← hlen]
  exact iterateMerge_of_rootOfQueue tie _ root hne h

/-! ## The decoder on the generated table -/

/-- For an input with two distinct bytes, shorter than 2^31 bytes, the decode
loop with the inverse of the generated table returns the input from the
encoded stream and ends with the empty candidate. -/
theorem zip_decode_roundtrip (tie : Tie) (S : Str) (a b : Byte) (hab : a ≠ b)
    (ha : a ∈ S) (hb : b ∈ S) (hS : S.length < 2147483648) :
    ∃ r, zip tie S = some r ∧
      decodeLoop (invertEntries r.generated.entries) [] [] r.encodedData = (S, []) := by
  have hne : S ≠ [] := List.ne_nil_of_mem ha
  obtain ⟨root, -, -, hkeys, -, hz⟩ := zip_spec tie S hne hS
  refine ⟨_, hz, ?_⟩
  have hcodes : ∀ k c, generateCodes root k = some c →
      (k, c) ∈ leafCodes root [] := generateCodes_eq_some root
  have hnonempty : ∀ k c, generateCodes root k = some c → c ≠ [] := fun k c h =>
    leafCodes_ne_nil root a b hab ((hkeys a).2 ha) ((hkeys b).2 hb) _ (hcodes k c h)
  have hinj : ∀ x y c, generateCodes root x = some c → generateCodes root y = some c →
      x = y := by
    intro x y c hx hy
    by_contra hxy
    exact generateCodes_prefixFree root x y c c hxy hx hy (List.prefix_refl c)
  have hM : ∀ code k, invertEntries (generateCodes root).entries code = some k ↔
      generateCodes root k = some code := by
    intro code k
    rw [invertEntries_eq_some_iff _ _ _ (entries_snd_nodup _ hinj), mem_entries]
  have hpf : PrefixFree (invertEntries (generateCodes root).entries) := by
    intro c1 c2 b1 b2 h1 h2 hpre
    rw [hM] at h1 h2
    by_cases hb12 : b1 = b2
    · subst hb12
      rw [h1] at h2
      exact Option.some.inj h2
    · exact absurd hpre (generateCodes_prefixFree root b1 b2 c1 c2 hb12 h1 h2)
  show decodeLoop (invertEntries (generateCodes root).entries) [] []
      (encodeWith (generateCodes root) S) = (S, [])
  apply decode_encodeWith _ _ hpf
  intro k hk
  have : k ∈ (leafCodes root []).map Prod.fst := by
    rw [leafCodes_map_fst]; exact (hkeys k).2 hk
  obtain ⟨c, hc⟩ := (generateCodes_isSome_iff root k).2 this
  exact ⟨c, hc, hnonempty k c hc, (hM c k).2 hc⟩

/-! ## More on the input too long for the counters -/

theorem buildTree_longInput (tie : Tie) :
    buildTree tie longInput = some (mk 98 1 nullptr nullptr) := by
  unfold buildTree
  rw [seedQueue_longInput, rootOfQueue_eq tie _ _ (mergeLoop_singleton tie _)]
  exact pqTop_singleton tie _

/-- The encode loop on a table of empty code words appends nothing. -/
theorem encodeLoop_all_empty (S : Str) :
    ∀ (m : CodeMap) (acc : Str), (∀ b c, m b = some c → c = []) →
      (encodeLoop m acc S).2 = acc := by
  induction S with
  | nil => intro m acc _; rfl
  | cons ch rest ih =>
    intro m acc hm
    rw [encodeLoop]
    cases hc : m ch with
    | some code =>
      have hi : m.index ch = (m, code) := by simp [CodeMap.index, hc]
      rw [hi, ih m _ hm, hm ch code hc, List.append_nil]
    | none =>
      have hi : m.index ch = (m.set ch [], []) := by simp [CodeMap.index, hc]
      rw [hi, ih _ _ ?_, List.append_nil]
      intro b c hbc
      have hbc' : (if b = ch then some [] else m b) = some c := hbc
      by_cases hb : b = ch
      · rw [if_pos hb] at hbc'
        exact (Option.some.inj hbc').symm
      · rw [if_neg hb] at hbc'
        exact hm b c hbc'

theorem zipFromRoot_encodedData (root : HuffmanNode) (S : Str) :
    (zipFromRoot root S).encodedData = (encodeLoop (generateCodes root) [] S).2 := rfl

theorem encodedData_longInput :
    (zipFromRoot (mk 98 1 nullptr nullptr) longInput).encodedData = [] := by
  rw [zipFromRoot_encodedData]
  apply encodeLoop_all_empty
  intro b c h
  have := generateCodes_eq_some _ b c h
  simp [leafCodes] at this
  exact this.2

theorem mem_longInput_b : (98 : Byte) ∈ longInput := by
  unfold longInput
  rw [List.mem_append]
  exact Or.inr (by simp)

/-! ## Kraft's inequality for prefix-free lists of `0`/`1` strings -/

theorem kraftSum_cons (c : Str) (cs : List Str) :
    kraftSum (c :: cs) = (1 / 2 : ℚ) ^ c.length + kraftSum cs := by
  simp [kraftSum]

theorem kraftSum_nonneg (cs : List Str) : 0 ≤ kraftSum cs := by
  unfold kraftSum
  apply List.sum_nonneg
  intro v hv
  obtain ⟨c, -, rfl⟩ := List.mem_map.1 hv
  positivity

theorem tailsOf_cons_same (x : Byte) (t : Str) (cs : List Str) :
    tailsOf x ((x :: t) :: cs) = t :: tailsOf x cs := by
  simp [tailsOf]

theorem tailsOf_cons_other (x y : Byte) (t : Str) (cs : List Str) (h : y ≠ x) :
    tailsOf x ((y :: t) :: cs) = tailsOf x cs := by
  simp [tailsOf, h]

theorem mem_tailsOf (x : Byte) (cs : List Str) (t : Str) :
    t ∈ tailsOf x cs ↔ x :: t ∈ cs := by
  unfold tailsOf
  rw [List.mem_filterMap]
  constructor
  · rintro ⟨c, hc, h⟩
    cases c with
    | nil => cases h
    | cons y s =>
      by_cases hy : y = x
      · simp only [hy, if_true, Option.some.injEq] at h
        rw [← h, ← hy]; exact hc
      · simp [hy] at h
  · intro h
    exact ⟨x :: t, h, by simp⟩

/-- Without the empty word, the Kraft sum of a list of `0`/`1` strings is half
the sum of the Kraft sums of its two halves. -/
theorem kraftSum_split (cs : List Str) (hne : ∀ c ∈ cs, c ≠ [])
    (hbits : ∀ c ∈ cs, ∀ d ∈ c, d = chZero ∨ d = chOne) :
    kraftSum cs = (kraftSum (tailsOf chZero cs) + kraftSum (tailsOf chOne cs)) / 2 := by
  induction cs with
  | nil => simp [kraftSum, tailsOf]
  | cons c cs ih =>
    have ih' := ih (fun c hc => hne c (by simp [hc])) (fun c hc => hbits c (by simp [hc]))
    cases c with
    | nil => exact absurd rfl (hne [] (by simp))
    | cons y t =>
      rcases hbits (y :: t) (by simp) y (by simp) with hy | hy
      · subst hy
        rw [tailsOf_cons_same, tailsOf_cons_other chOne chZero t cs (by decide),
          kraftSum_cons, kraftSum_cons, ih']
        simp only [List.length_cons, pow_succ]
        ring
      · subst hy
        rw [tailsOf_cons_same, tailsOf_cons_other chZero chOne t cs (by decide),
          kraftSum_cons, kraftSum_cons, ih']
        simp only [List.length_cons, pow_succ]
        ring

theorem prefixFreeList_tailsOf (x : Byte) (cs : List Str) (h : PrefixFreeList cs) :
    PrefixFreeList (tailsOf x cs) := by
  unfold PrefixFreeList tailsOf
  refine List.Pairwise.filterMap _ ?_ h
  intro a a' hR b hb b' hb'
  cases a with
  | nil => cases hb
  | cons y s =>
    cases a' with
    | nil => cases hb'
    | cons y' s' =>
      by_cases hy : y = x
      · by_cases hy' : y' = x
        · simp only [hy, if_true, Option.mem_def, Option.some.injEq] at hb
          simp only [hy', if_true, Option.mem_def, Option.some.injEq] at hb'
          subst hb hb' hy hy'
          constructor
          · intro hp; exact hR.1 ((List.prefix_cons_inj _).2 hp)
          · intro hp; exact hR.2 ((List.prefix_cons_inj _).2 hp)
        · simp [hy'] at hb'
      · simp [hy] at hb

theorem prefixFreeList_of_mem_nil (cs : List Str) (h : PrefixFreeList cs)
    (hnil : [] ∈ cs) : cs = [[]] := by
  cases cs with
  | nil => simp at hnil
  | cons c rest =>
    have hp := List.pairwise_cons.1 h
    cases rest with
    | nil =>
      simp only [List.mem_singleton] at hnil
      rw [← hnil]
    | cons d rest =>
      exfalso
      by_cases hc : c = []
      · subst hc
        exact (hp.1 d (by simp)).1 (List.nil_prefix)
      · have hmem : [] ∈ d :: rest := by
          rcases List.mem_cons.1 hnil with h' | h'
          · exact absurd h'.symm hc
          · exact h'
        exact (hp.1 [] hmem).2 (List.nil_prefix)

/-- Kraft's inequality. -/
theorem kraftSum_le_one (n : Nat) :
    ∀ cs : List Str, (∀ c ∈ cs, c.length ≤ n) →
      (∀ c ∈ cs, ∀ d ∈ c, d = chZero ∨ d = chOne) → PrefixFreeList cs →
      kraftSum cs ≤ 1 := by
  induction n with
  | zero =>
    intro cs hlen _ hpf
    cases cs with
    | nil => simp [kraftSum]
    | cons c rest =>
      have hc : c = [] := List.length_eq_zero.1 (Nat.le_zero.1 (hlen c (by simp)))
      have := prefixFreeList_of_mem_nil (c :: rest) hpf (by simp [hc])
      rw [this]
      simp [kraftSum]
  | succ n ih =>
    intro cs hlen hbits hpf
    by_cases hnil : [] ∈ cs
    · rw [prefixFreeList_of_mem_nil cs hpf hnil]
      simp [kraftSum]
    · have hne : ∀ c ∈ cs, c ≠ [] := fun c hc e => hnil (e ▸ hc)
      rw [kraftSum_split cs hne hbits]
      have key : ∀ x, kraftSum (tailsOf x cs) ≤ 1 := by
        intro x
        apply ih _ _ _ (prefixFreeList_tailsOf x cs hpf)
        · intro t ht
          have := hlen _ ((mem_tailsOf x cs t).1 ht)
          simp only [List.length_cons] at this
          omega
        · intro t ht d hd
          exact hbits _ ((mem_tailsOf x cs t).1 ht) d (by simp [hd])
      have h0 := key chZero
      have h1 := key chOne
      linarith

theorem kraft_inequality (cs : List Str)
    (hbits : ∀ c ∈ cs, ∀ d ∈ c, d = chZero ∨ d = chOne) (hpf : PrefixFreeList cs) :
    kraftSum cs ≤ 1 := by
  have hbound : ∀ c ∈ cs, c.length ≤ (cs.map List.length).sum := by
    intro c hc
    exact List.single_le_sum (by simp) _ (List.mem_map.2 ⟨c, hc, rfl⟩)
  exact kraftSum_le_one _ cs hbound hbits hpf

/-! ## Greedy merging against any lengths that satisfy Kraft's inequality -/

theorem kraftA_cons (p : Int × Nat) (A : List (Int × Nat)) :
    kraftA (p :: A) = (1 / 2 : ℚ) ^ p.2 + kraftA A := by
  simp [kraftA]

theorem costA_cons (p : Int × Nat) (A : List (Int × Nat)) :
    costA (p :: A) = p.1 * (p.2 : Int) + costA A := by
  simp [costA]

theorem totalLength_cons (p : Int × Nat) (A : List (Int × Nat)) :
    totalLength (p :: A) = p.2 + totalLength A := by
  simp [totalLength]

theorem kraftA_perm {A B : List (Int × Nat)} (h : A.Perm B) : kraftA A = kraftA B :=
  (h.map _).sum_eq

theorem costA_perm {A B : List (Int × Nat)} (h : A.Perm B) : costA A = costA B :=
  (h.map _).sum_eq

theorem totalLength_perm {A B : List (Int × Nat)} (h : A.Perm B) :
    totalLength A = totalLength B :=
  (h.map _).sum_eq

theorem kraftA_nonneg (A : List (Int × Nat)) : 0 ≤ kraftA A := by
  unfold kraftA
  apply List.sum_nonneg
  intro v hv
  obtain ⟨c, -, rfl⟩ := List.mem_map.1 hv
  positivity

theorem costA_nonneg (A : List (Int × Nat)) (h : ∀ p ∈ A, 0 ≤ p.1) : 0 ≤ costA A := by
  unfold costA
  apply List.sum_nonneg
  intro v hv
  obtain ⟨p, hp, rfl⟩ := List.mem_map.1 hv
  exact mul_nonneg (h p hp) (Int.natCast_nonneg _)

/-- Lengths below `L` have a Kraft sum that is an even multiple of `2 ^ (-L)`. -/
theorem kraftA_even (L : Nat) (A : List (Int × Nat)) (h : ∀ p ∈ A, p.2 < L) :
    ∃ N : Nat, kraftA A = (2 * N : ℚ) / 2 ^ L := by
  induction A with
  | nil => exact ⟨0, by simp [kraftA]⟩
  | cons p A ih =>
    obtain ⟨N, hN⟩ := ih (fun q hq => h q (by simp [hq]))
    have hp : p.2 < L := h p (by simp)
    refine ⟨N + 2 ^ (L - p.2 - 1), ?_⟩
    rw [kraftA_cons, hN]
    have hL : L = p.2 + 1 + (L - p.2 - 1) := by omega
    have h2 : (2 : ℚ) ^ L = 2 ^ p.2 * 2 * 2 ^ (L - p.2 - 1) := by
      conv_lhs => rw [hL]
      rw [pow_add, pow_succ]
    have hpos : (0 : ℚ) < 2 ^ p.2 := by positivity
    have hpos2 : (0 : ℚ) < 2 ^ (L - p.2 - 1) := by positivity
    rw [h2]
    push_cast
    field_simp
    ring

/-- When one length `L` is larger than all the others, Kraft's inequality
leaves room for a second word of length `L`. -/
theorem kraftA_room (L : Nat) (hL : 1 ≤ L) (A : List (Int × Nat)) (h : ∀ p ∈ A, p.2 < L)
    (hk : kraftA A + (1 / 2 : ℚ) ^ L ≤ 1) : kraftA A + (1 / 2 : ℚ) ^ (L - 1) ≤ 1 := by
  obtain ⟨N, hN⟩ := kraftA_even L A h
  have hpos : (0 : ℚ) < 2 ^ L := by positivity
  have h1 : (1 / 2 : ℚ) ^ L = 1 / 2 ^ L := by rw [one_div_pow]
  have h2 : (1 / 2 : ℚ) ^ (L - 1) = 2 / 2 ^ L := by
    have : L = (L - 1) + 1 := by omega
    conv_rhs => rw [this]
    rw [one_div_pow, pow_succ]
    field_simp
  rw [hN, h1, ← add_div, div_le_one hpos] at hk
  rw [hN, h2, ← add_div, div_le_one hpos]
  have hk' : 2 * N + 1 ≤ 2 ^ L := by exact_mod_cast hk
  have heven : (2 : Nat) ^ L = 2 * 2 ^ (L - 1) := by
    have : L = (L - 1) + 1 := by omega
    conv_lhs => rw [this]
    rw [pow_succ]; ring
  have : 2 * N + 2 ≤ 2 ^ L := by omega
  exact_mod_cast this

theorem equalized_swap (a b : Int) (la lb : Nat) (R : List (Int × Nat))
    (h : Equalized b a lb la R) : Equalized a b la lb R := by
  obtain ⟨m, R', hm, hperm, hk, hc⟩ := h
  refine ⟨m, R', hm, hperm, ?_, ?_⟩
  · rw [kraftA_perm (List.Perm.swap (b, m) (a, m) R')]; exact hk
  · rw [costA_perm (List.Perm.swap (b, m) (a, m) R'),
      costA_perm (List.Perm.swap (b, lb) (a, la) R)]
    exact hc

theorem equalize_core (a b : Int) (la lb : Nat) (R : List (Int × Nat))
    (ha : 0 ≤ a) (hb : 0 ≤ b) (hR : ∀ p ∈ R, a ≤ p.1 ∧ b ≤ p.1)
    (hk : kraftA ((a, la) :: (b, lb) :: R) ≤ 1) (hle : la ≤ lb)
    (ih : ∀ (a' b' : Int) (la' lb' : Nat) (R' : List (Int × Nat)),
      0 ≤ a' → 0 ≤ b' → (∀ p ∈ R', a' ≤ p.1 ∧ b' ≤ p.1) →
      kraftA ((a', la') :: (b', lb') :: R') ≤ 1 →
      equalizeMeasure la' lb' R' < equalizeMeasure la lb R → Equalized a' b' la' lb' R') :
    Equalized a b la lb R := by
  rcases Nat.eq_or_lt_of_le hle with heq | hlt
  · -- both lengths are equal
    subst heq
    refine ⟨la, R, ?_, List.Perm.refl _, hk, le_refl _⟩
    by_contra h0
    have : la = 0 := by omega
    subst this
    rw [kraftA_cons, kraftA_cons] at hk
    have := kraftA_nonneg R
    simp only [pow_zero] at hk
    linarith
  · by_cases hex : ∃ p ∈ R, la < p.2
    · -- give the longer length of `p` to `a`
      obtain ⟨p, hp, hpl⟩ := hex
      obtain ⟨s, t, hst⟩ := List.append_of_mem hp
      have hperm : R.Perm (p :: (s ++ t)) := by
        rw [hst]; exact List.perm_middle
      have hR1 : ∀ q ∈ (p.1, la) :: (s ++ t), a ≤ q.1 ∧ b ≤ q.1 := by
        intro q hq
        rcases List.mem_cons.1 hq with rfl | hq
        · exact hR p hp
        · exact hR q (hperm.mem_iff.2 (List.mem_cons_of_mem _ hq))
      have hkR : kraftA R = (1 / 2 : ℚ) ^ p.2 + kraftA (s ++ t) := by
        rw [kraftA_perm hperm, kraftA_cons]
      have hcR : costA R = p.1 * (p.2 : Int) + costA (s ++ t) := by
        rw [costA_perm hperm, costA_cons]
      have htR : totalLength R = p.2 + totalLength (s ++ t) := by
        rw [totalLength_perm hperm, totalLength_cons]
      have hk1 : kraftA ((a, p.2) :: (b, lb) :: (p.1, la) :: (s ++ t)) ≤ 1 := by
        rw [kraftA_cons, kraftA_cons, kraftA_cons]
        rw [kraftA_cons, kraftA_cons, hkR] at hk
        simp only at hk ⊢
        linarith
      have hmeas : equalizeMeasure p.2 lb ((p.1, la) :: (s ++ t)) < equalizeMeasure la lb R := by
        unfold equalizeMeasure
        rw [totalLength_cons, htR]
        simp only
        omega
      obtain ⟨m, R', hm, hperm', hk', hc'⟩ :=
        ih a b p.2 lb ((p.1, la) :: (s ++ t)) ha hb hR1 hk1 hmeas
      refine ⟨m, R', hm, ?_, hk', le_trans hc' ?_⟩
      · refine hperm'.trans ?_
        have := (hperm.map Prod.fst).symm
        simpa using this
      · rw [costA_cons, costA_cons, costA_cons, costA_cons, costA_cons, hcR]
        simp only
        have h1 : 0 ≤ p.1 - a := by have := (hR p hp).1; omega
        have h2 : (0 : Int) ≤ (p.2 : Int) - (la : Int) := by omega
        nlinarith [mul_nonneg h1 h2]
    · -- the length of `b` is the only longest one: shorten it
      have hall : ∀ q ∈ (a, la) :: R, q.2 < lb := by
        intro q hq
        rcases List.mem_cons.1 hq with rfl | hq
        · exact hlt
        · have : ¬ la < q.2 := fun h => hex ⟨q, hq, h⟩
          omega
      have hk0 : kraftA ((a, la) :: R) + (1 / 2 : ℚ) ^ lb ≤ 1 := by
        rw [kraftA_cons] at hk ⊢
        rw [kraftA_cons] at hk
        simp only at hk ⊢
        linarith
      have hroom := kraftA_room lb (by omega) _ hall hk0
      have hk1 : kraftA ((a, la) :: (b, lb - 1) :: R) ≤ 1 := by
        rw [kraftA_cons] at hroom ⊢
        rw [kraftA_cons]
        simp only at hroom ⊢
        linarith
      have hmeas : equalizeMeasure la (lb - 1) R < equalizeMeasure la lb R := by
        unfold equalizeMeasure
        omega
      obtain ⟨m, R', hm, hperm', hk', hc'⟩ := ih a b la (lb - 1) R ha hb hR hk1 hmeas
      refine ⟨m, R', hm, hperm', hk', le_trans hc' ?_⟩
      rw [costA_cons, costA_cons, costA_cons, costA_cons]
      simp only
      have : ((lb - 1 : Nat) : Int) = (lb : Int) - 1 := by omega
      rw [this]
      nlinarith

/-- The lengths of the two lightest weights can be made equal and positive
without breaking Kraft's inequality or raising the cost. -/
theorem equalize (n : Nat) :
    ∀ (a b : Int) (la lb : Nat) (R : List (Int × Nat)),
      0 ≤ a → 0 ≤ b → (∀ p ∈ R, a ≤ p.1 ∧ b ≤ p.1) →
      kraftA ((a, la) :: (b, lb) :: R) ≤ 1 →
      equalizeMeasure la lb R = n → Equalized a b la lb R := by
  induction n using Nat.strong_induction_on with
  | _ n ih =>
    intro a b la lb R ha hb hR hk hn
    have ih' : ∀ (a' b' : Int) (la' lb' : Nat) (R' : List (Int × Nat)),
        0 ≤ a' → 0 ≤ b' → (∀ p ∈ R', a' ≤ p.1 ∧ b' ≤ p.1) →
        kraftA ((a', la') :: (b', lb') :: R') ≤ 1 →
        equalizeMeasure la' lb' R' < equalizeMeasure la lb R → Equalized a' b' la' lb' R' := by
      intro a' b' la' lb' R' ha' hb' hR' hk' hlt
      exact ih _ (hn ▸ hlt) a' b' la' lb' R' ha' hb' hR' hk' rfl
    rcases le_total la lb with hle | hle
    · exact equalize_core a b la lb R ha hb hR hk hle ih'
    · apply equalized_swap
      have hm : equalizeMeasure lb la R = equalizeMeasure la lb R := by
        unfold equalizeMeasure
        rw [Nat.min_comm, Nat.add_comm lb la]
      refine equalize_core b a lb la R hb ha (fun p hp => ⟨(hR p hp).2, (hR p hp).1⟩) ?_ hle ?_
      · rw [kraftA_perm (List.Perm.swap (a, la) (b, lb) R)]; exact hk
      · intro a' b' la' lb' R' ha' hb' hR' hk' hlt
        exact ih' a' b' la' lb' R' ha' hb' hR' hk' (hm ▸ hlt)

theorem exists_perm_of_map_perm_cons {α β : Type} (f : α → β) (A : List α) (x : β)
    (ys : List β) (h : (A.map f).Perm (x :: ys)) :
    ∃ p A0, A.Perm (p :: A0) ∧ f p = x ∧ (A0.map f).Perm ys := by
  have hx : x ∈ A.map f := h.mem_iff.2 (by simp)
  obtain ⟨p, hp, hfp⟩ := List.mem_map.1 hx
  obtain ⟨s, t, hst⟩ := List.append_of_mem hp
  have hperm : A.Perm (p :: (s ++ t)) := by rw [hst]; exact List.perm_middle
  refine ⟨p, s ++ t, hperm, hfp, ?_⟩
  have h2 : (x :: (s ++ t).map f).Perm (x :: ys) := by
    have := (hperm.map f).symm.trans h
    rwa [List.map_cons, hfp] at this
  exact h2.cons_inv

/-- One greedy merge against an assignment: lengths that satisfy Kraft's
inequality for weights whose two lightest are `a` and `b` give lengths for the
weights with `a + b` in their place, at a cost lower by at least `a + b`. -/
theorem merge_assignment (A : List (Int × Nat)) (a b : Int) (W : List Int)
    (hA : (A.map Prod.fst).Perm (a :: b :: W)) (ha : 0 ≤ a) (hb : 0 ≤ b)
    (hW : ∀ w ∈ W, a ≤ w ∧ b ≤ w) (hk : kraftA A ≤ 1) :
    ∃ A', (A'.map Prod.fst).Perm ((a + b) :: W) ∧ kraftA A' ≤ 1 ∧
      costA A' + (a + b) ≤ costA A := by
  obtain ⟨p, A0, hp, hpa, hA0⟩ := exists_perm_of_map_perm_cons Prod.fst A a _ hA
  obtain ⟨q, R, hq, hqb, hR⟩ := exists_perm_of_map_perm_cons Prod.fst A0 b _ hA0
  have hpe : p = (a, p.2) := by rw [← hpa]
  have hqe : q = (b, q.2) := by rw [← hqb]
  have hperm : A.Perm ((a, p.2) :: (b, q.2) :: R) := by
    rw [← hpe, ← hqe]
    exact hp.trans (List.Perm.cons _ hq)
  have hRw : ∀ r ∈ R, a ≤ r.1 ∧ b ≤ r.1 := by
    intro r hr
    exact hW r.1 (hR.mem_iff.1 (List.mem_map.2 ⟨r, hr, rfl⟩))
  have hk' : kraftA ((a, p.2) :: (b, q.2) :: R) ≤ 1 := by
    rw [← kraftA_perm hperm]; exact hk
  obtain ⟨m, R', hm, hperm', hkm, hcm⟩ :=
    equalize _ a b p.2 q.2 R ha hb hRw hk' rfl
  refine ⟨(a + b, m - 1) :: R', ?_, ?_, ?_⟩
  · rw [List.map_cons]
    exact List.Perm.cons _ (hperm'.trans hR)
  · rw [kraftA_cons, kraftA_cons] at hkm
    rw [kraftA_cons]
    simp only at hkm ⊢
    have : (1 / 2 : ℚ) ^ (m - 1) = (1 / 2 : ℚ) ^ m + (1 / 2 : ℚ) ^ m := by
      have hm' : m = (m - 1) + 1 := by omega
      conv_rhs => rw [hm']
      rw [pow_succ]
      ring
    rw [this]
    linarith
  · rw [costA_perm hperm]
    rw [costA_cons, costA_cons] at hcm
    rw [costA_cons]
    simp only at hcm ⊢
    have : ((m - 1 : Nat) : Int) = (m : Int) - 1 := by omega
    rw [this]
    nlinarith

/-! ## The merge loop builds a tree of least cost -/

theorem sumsQueue_nonneg (L : List (Byte × Int)) (hpos : ∀ e ∈ L, 0 < e.2)
    (pq : List HuffmanNode) (hq : SumsQueue L pq) : ∀ x ∈ pq, 0 ≤ x.frequency := by
  intro x hx
  rw [(hq.1 x hx).2.2]
  apply List.sum_nonneg
  intro v hv
  obtain ⟨e, he, rfl⟩ := List.mem_map.1 hv
  have : e ∈ pq.flatMap leaves := List.mem_flatMap.2 ⟨x, hx, he⟩
  exact le_of_lt (hpos e (hq.2.mem_iff.1 this))

theorem queueCost_perm {p q : List HuffmanNode} (h : p.Perm q) : queueCost p = queueCost q :=
  (h.map _).sum_eq

theorem costA_nonneg_of_queue (L : List (Byte × Int)) (hpos : ∀ e ∈ L, 0 < e.2)
    (pq : List HuffmanNode) (hq : SumsQueue L pq) (A : List (Int × Nat))
    (hA : (A.map Prod.fst).Perm (pq.map HuffmanNode.frequency)) : 0 ≤ costA A := by
  apply costA_nonneg
  intro p hp
  have : p.1 ∈ pq.map HuffmanNode.frequency := hA.mem_iff.1 (List.mem_map.2 ⟨p, hp, rfl⟩)
  obtain ⟨x, hx, hxe⟩ := List.mem_map.1 this
  rw [← hxe]
  exact sumsQueue_nonneg L hpos pq hq x hx

/-- The cost of the tree the merge loop ends with is at most the cost of the
trees in the queue plus the cost of any lengths for the frequencies in the
queue that satisfy Kraft's inequality. -/
theorem mergeLoopFuel_optimal (tie : Tie) (L : List (Byte × Int))
    (hpos : ∀ e ∈ L, 0 < e.2) (htotal : (L.map Prod.snd).sum < 2147483648) :
    ∀ (fuel : Nat) (pq : List HuffmanNode), SumsQueue L pq →
      ∀ root, mergeLoopFuel tie fuel pq = some [root] →
      ∀ A : List (Int × Nat), (A.map Prod.fst).Perm (pq.map HuffmanNode.frequency) →
        kraftA A ≤ 1 → treeCost root ≤ queueCost pq + costA A := by
  intro fuel
  induction fuel with
  | zero =>
    intro pq hq root hrun A hA _
    have hc := costA_nonneg_of_queue L hpos pq hq A hA
    by_cases h1 : pq.length > 1
    · simp [mergeLoopFuel, h1] at hrun
    · simp only [mergeLoopFuel, h1, if_false, Option.some.injEq] at hrun
      rw [hrun]
      simp only [queueCost, List.map_cons, List.map_nil, List.sum_cons, List.sum_nil]
      omega
  | succ fuel ih =>
    intro pq hq root hrun A hA hk
    have hc := costA_nonneg_of_queue L hpos pq hq A hA
    by_cases h1 : pq.length > 1
    · obtain ⟨left, right, pq2, hstep, hperm, hmin1, hmin2⟩ := mergeStep_spec tie pq h1
      have hq' := mergeStep_sumsQueue tie L hpos htotal pq _ h1 hq hstep
      rw [mergeLoopFuel, if_pos h1, hstep] at hrun
      have hL := hq.1 left (hperm.mem_iff.2 (by simp))
      have hR := hq.1 right (hperm.mem_iff.2 (by simp))
      -- the merged frequency is the exact sum
      have hm := hq'.1 (mk 0 (wrapInt (left.frequency + right.frequency)) left right)
        (by simp)
      have hexact : wrapInt (left.frequency + right.frequency)
          = left.frequency + right.frequency := by
        rcases hm.2.1 with h | h
        · exact absurd h.1 hL.1.ne_nullptr
        · exact h.1
      have hnn := sumsQueue_nonneg L hpos pq hq
      obtain ⟨A', hA', hk', hcost⟩ := merge_assignment A left.frequency right.frequency
        (pq2.map HuffmanNode.frequency)
        (hA.trans (by simpa using hperm.map HuffmanNode.frequency))
        (hnn left (hperm.mem_iff.2 (by simp))) (hnn right (hperm.mem_iff.2 (by simp)))
        (by
          intro w hw
          obtain ⟨y, hy, rfl⟩ := List.mem_map.1 hw
          exact ⟨hmin1 y (by simp [hy]), hmin2 y hy⟩)
        hk
      have hA'' : (A'.map Prod.fst).Perm
          ((pq2 ++ [mk 0 (wrapInt (left.frequency + right.frequency)) left right]).map
            HuffmanNode.frequency) := by
        refine hA'.trans ?_
        rw [List.map_append, List.map_cons, List.map_nil]
        have : (mk 0 (wrapInt (left.frequency + right.frequency)) left right).frequency
            = left.frequency + right.frequency := hexact
        rw [this]
        exact @List.perm_append_comm _ [left.frequency + right.frequency]
          (pq2.map HuffmanNode.frequency)
      have := ih _ hq' root hrun A' hA'' hk'
      have hqc : queueCost (pq2 ++ [mk 0 (wrapInt (left.frequency + right.frequency)) left right])
          = queueCost pq + (left.frequency + right.frequency) := by
        rw [queueCost_perm hperm]
        simp only [queueCost, List.map_append, List.map_cons, List.map_nil, List.sum_append,
          List.sum_cons, List.sum_nil]
        have ht : treeCost (mk 0 (wrapInt (left.frequency + right.frequency)) left right)
            = treeCost left + treeCost right + leafSum left + leafSum right := by
          rw [treeCost, if_neg]
          intro h
          exact hL.1.ne_nullptr h.1
        rw [ht, ← hL.2.2, ← hR.2.2]
        ring
      rw [hqc] at this
      omega
    · simp only [mergeLoopFuel, h1, if_false, Option.some.injEq] at hrun
      rw [hrun]
      simp only [queueCost, List.map_cons, List.map_nil, List.sum_cons, List.sum_nil]
      omega

/-! ## The length of the encoded stream -/

theorem leafSum_of_not_leaf (c : Byte) (f : Int) (left right : HuffmanNode)
    (h : ¬ (left = nullptr ∧ right = nullptr)) :
    leafSum (mk c f left right) = leafSum left + leafSum right := by
  unfold leafSum
  rw [leaves, if_neg h, List.nil_append, List.map_append, List.sum_append]

theorem leaves_of_not_leaf (c : Byte) (f : Int) (left right : HuffmanNode)
    (h : ¬ (left = nullptr ∧ right = nullptr)) :
    leaves (mk c f left right) = leaves left ++ leaves right := by
  rw [leaves, if_neg h, List.nil_append]

/-- The sum over the leaves of weight times code word length is the cost of
the tree, when the frequency of every leaf is the weight of its byte. -/
theorem sum_leafCodes (φ : Byte → Int) (x : HuffmanNode) :
    ∀ code : Str, (∀ e ∈ leaves x, e.2 = φ e.1) →
      ((leafCodes x code).map (fun e => φ e.1 * (e.2.length : Int))).sum
        = treeCost x + (code.length : Int) * leafSum x := by
  induction x with
  | nullptr => intro code _; simp [leafCodes, treeCost, leafSum, leaves]
  | mk c f l r ihl ihr =>
    intro code hφ
    by_cases h : l = nullptr ∧ r = nullptr
    · obtain ⟨rfl, rfl⟩ := h
      have := hφ (c, f) (by simp [leaves])
      simp only at this
      simp [leafCodes, treeCost, leafSum, leaves, this]
      ring
    · rw [leaves_of_not_leaf c f l r h] at hφ
      have hl := ihl (code ++ [chZero]) (fun e he => hφ e (by simp [he]))
      have hr := ihr (code ++ [chOne]) (fun e he => hφ e (by simp [he]))
      rw [leafCodes, if_neg h, List.nil_append, List.map_append, List.sum_append, hl, hr,
        treeCost, if_neg h, leafSum_of_not_leaf c f l r h]
      simp only [List.length_append, List.length_singleton]
      push_cast
      ring

theorem sum_ite_eq_of_nodup (keys : List Byte) (hnd : keys.Nodup) (x : Byte) (hx : x ∈ keys)
    (g : Byte → Nat) : (keys.map (fun b => if x = b then g b else 0)).sum = g x := by
  induction keys with
  | nil => simp at hx
  | cons k keys ih =>
    rw [List.nodup_cons] at hnd
    rw [List.map_cons, List.sum_cons]
    by_cases hk : x = k
    · subst hk
      have : (keys.map (fun b => if x = b then g b else 0)).sum = 0 := by
        apply List.sum_eq_zero
        intro v hv
        obtain ⟨b, hb, rfl⟩ := List.mem_map.1 hv
        have : x ≠ b := fun e => hnd.1 (e ▸ hb)
        simp [this]
      simp [this]
    · rcases List.mem_cons.1 hx with h | h
      · exact absurd h hk
      · simp [hk, ih hnd.2 h]

/-- A sum over the bytes of the input is the sum over distinct keys of the
number of occurrences times the term. -/
theorem sum_map_eq_sum_count (keys : List Byte) (hnd : keys.Nodup) (g : Byte → Nat) :
    ∀ S : Str, (∀ b ∈ S, b ∈ keys) →
      (S.map g).sum = (keys.map (fun b => S.count b * g b)).sum := by
  intro S
  induction S with
  | nil => intro _; simp
  | cons x S ih =>
    intro hS
    have hx : x ∈ keys := hS x (by simp)
    have ih' := ih (fun b hb => hS b (by simp [hb]))
    rw [List.map_cons, List.sum_cons, ih', ← sum_ite_eq_of_nodup keys hnd x hx g,
      ← List.sum_map_add]
    congr 1
    apply List.map_congr_left
    intro b _
    rw [List.count_cons]
    by_cases hb : x = b
    · simp [hb]; ring
    · simp [hb]

theorem sum_map_eq_sum_dedup (S : Str) (g : Byte → Nat) :
    (S.map g).sum = (S.dedup.map (fun b => S.count b * g b)).sum :=
  sum_map_eq_sum_count S.dedup (List.nodup_dedup S) g S (fun _ hb => List.mem_dedup.2 hb)

theorem encodeWith_length (m : CodeMap) (S : Str) :
    (encodeWith m S).length = (S.map (fun b => ((m b).getD []).length)).sum := by
  unfold encodeWith
  rw [List.length_flatten, List.map_map]
  rfl

theorem mergeLoop_of_rootOfQueue (tie : Tie) (q : List HuffmanNode) (root : HuffmanNode)
    (h : rootOfQueue tie q = some root) : mergeLoop tie q = some [root] := by
  obtain ⟨pq', hrun, hlen', -⟩ := mergeLoop_terminates tie q
  have hroot : pqTop tie pq' = some root := by
    rw [← rootOfQueue_eq tie _ pq' hrun]; exact h
  have hmem := (pqTop_spec tie pq' root hroot).1
  have hpq : pq' = [root] := by
    match pq', hlen', hmem with
    | [x], _, hmem => rw [List.mem_singleton] at hmem; rw [hmem]
  rw [hrun, hpq]

theorem mergeLoop_of_buildTree (tie : Tie) (S : Str) (root : HuffmanNode)
    (h : buildTree tie S = some root) :
    mergeLoop tie (seedQueue (countFrequencies S)) = some [root] :=
  mergeLoop_of_rootOfQueue tie _ root h

theorem queueCost_seedQueue (freq : Byte → Int) : queueCost (seedQueue freq) = 0 := by
  unfold queueCost
  apply List.sum_eq_zero
  intro v hv
  obtain ⟨x, hx, rfl⟩ := List.mem_map.1 hv
  obtain ⟨b, -, rfl⟩ := (mem_seedQueue _ x).1 hx
  unfold leafNode
  rw [treeCost, if_pos ⟨rfl, rfl⟩]

theorem seedQueue_frequencies (freq : Byte → Int) :
    (seedQueue freq).map HuffmanNode.frequency = (frequencyTable freq).map Prod.snd := by
  rw [seedQueue_eq, frequencyTable, List.map_map, List.map_map]
  rfl

theorem cast_sum_map (keys : List Byte) (h : Byte → Nat) :
    (((keys.map h).sum : Nat) : Int) = (keys.map (fun b => ((h b : Nat) : Int))).sum := by
  induction keys with
  | nil => simp
  | cons k keys ih => simp only [List.map_cons, List.sum_cons, Nat.cast_add, ih]

theorem kraftA_eq_kraftSum (keys : List Byte) (w : Byte → Int) (C : Byte → Str) :
    kraftA (keys.map (fun b => (w b, (C b).length))) = kraftSum (keys.map C) := by
  unfold kraftA kraftSum
  rw [List.map_map, List.map_map]
  rfl

theorem costA_eq_sum (keys : List Byte) (w : Byte → Nat) (n : Byte → Nat) :
    costA (keys.map (fun b => ((w b : Int), n b))) = ((keys.map (fun b => w b * n b)).sum : Nat) := by
  unfold costA
  rw [List.map_map]
  induction keys with
  | nil => simp
  | cons k keys ih =>
    simp only [List.map_cons, List.sum_cons, Function.comp_apply] at ih ⊢
    rw [ih]
    push_cast
    ring

/-- Among all prefix-free `0`/`1` codes for the bytes of a non-empty input
shorter than 2^31 bytes, the generated code gives the shortest stream. -/
theorem zip_optimal (tie : Tie) (S : Str) (hne : S ≠ []) (hS : S.length < 2147483648)
    (C : Byte → Str) (hbits : ∀ x ∈ S, ∀ d ∈ C x, d = chZero ∨ d = chOne)
    (hpf : ∀ x ∈ S, ∀ y ∈ S, x ≠ y → ¬ C x <+: C y) :
    ∃ r, zip tie S = some r ∧
      r.encodedData.length
        = (S.dedup.map (fun b => S.count b * ((r.generated b).getD []).length)).sum ∧
      r.encodedData.length ≤ (S.dedup.map (fun b => S.count b * (C b).length)).sum := by
  obtain ⟨root, hb, hstrict, hexact, hfreq, hperm⟩ := buildTree_sums tie S hne hS
  obtain ⟨root', hb', -, hkeys, hnd, hz⟩ := zip_spec tie S hne hS
  rw [hb] at hb'
  cases hb'
  refine ⟨_, hz, ?_, ?_⟩
  · show (encodeWith (generateCodes root) S).length = _
    rw [encodeWith_length, sum_map_eq_sum_dedup]
  · show (encodeWith (generateCodes root) S).length ≤ _
    rw [encodeWith_length, sum_map_eq_sum_dedup]
    -- the left side is the cost of the tree
    have hφ : ∀ e ∈ leaves root, e.2 = ((S.count e.1 : Nat) : Int) := by
      intro e he
      obtain ⟨b, -, rfl⟩ := List.mem_map.1 (hperm.mem_iff.1 he)
      rfl
    have hsum := sum_leafCodes (fun b => ((S.count b : Nat) : Int)) root [] hφ
    simp only [List.length_nil, Nat.cast_zero, zero_mul, add_zero] at hsum
    have hkeysnd : ((leafCodes root []).map Prod.fst).Nodup := by
      rw [leafCodes_map_fst]; exact hnd
    have hcode : ∀ e ∈ leafCodes root [], generateCodes root e.1 = some e.2 := by
      intro e he
      obtain ⟨c, hc⟩ := (generateCodes_isSome_iff root e.1).2 (List.mem_map.2 ⟨e, he, rfl⟩)
      have hmem := generateCodes_eq_some root e.1 c hc
      have := List.inj_on_of_nodup_map hkeysnd hmem he rfl
      rw [hc, ← this]
    have hleft : (((S.dedup.map
        (fun b => S.count b * ((generateCodes root b).getD []).length)).sum : Nat) : Int)
        = treeCost root := by
      rw [← hsum]
      have hpk : ((leafCodes root []).map Prod.fst).Perm S.dedup := by
        rw [List.perm_ext_iff_of_nodup hkeysnd (List.nodup_dedup S)]
        intro b
        rw [leafCodes_map_fst, hkeys, List.mem_dedup]
      have h1 : (leafCodes root []).map
            (fun e => ((S.count e.1 : Nat) : Int) * (e.2.length : Int))
          = ((leafCodes root []).map Prod.fst).map
            (fun b => (((S.count b * ((generateCodes root b).getD []).length : Nat)) : Int)) := by
        rw [List.map_map]
        apply List.map_congr_left
        intro e he
        simp only [Function.comp_apply, hcode e he, Option.getD_some]
        push_cast
        rfl
      rw [h1, (hpk.map _).sum_eq, cast_sum_map]
    -- the competitor satisfies Kraft's inequality
    have hkraft : kraftA (S.dedup.map (fun b => (((S.count b : Nat) : Int), (C b).length))) ≤ 1 := by
      rw [kraftA_eq_kraftSum]
      apply kraft_inequality
      · intro c hc d hd
        obtain ⟨x, hx, rfl⟩ := List.mem_map.1 hc
        exact hbits x (List.mem_dedup.1 hx) d hd
      · unfold PrefixFreeList
        rw [List.pairwise_map]
        refine List.Pairwise.imp_of_mem ?_ (List.nodup_dedup S)
        intro x y hx hy hxy
        exact ⟨hpf x (List.mem_dedup.1 hx) y (List.mem_dedup.1 hy) hxy,
          hpf y (List.mem_dedup.1 hy) x (List.mem_dedup.1 hx) (Ne.symm hxy)⟩
    have hfp := frequencyTable_perm S hS
    have hpos : ∀ e ∈ frequencyTable (countFrequencies S), 0 < e.2 := by
      intro e he
      obtain ⟨b, hbm, rfl⟩ := List.mem_map.1 (hfp.mem_iff.1 he)
      have : 0 < S.count b := List.count_pos_iff.2 (List.mem_dedup.1 hbm)
      show (0 : Int) < (S.count b : Int)
      exact_mod_cast this
    have htot : ((frequencyTable (countFrequencies S)).map Prod.snd).sum < 2147483648 := by
      rw [(hfp.map Prod.snd).sum_eq, sum_counts]
      exact_mod_cast hS
    have hweights : ((S.dedup.map (fun b => (((S.count b : Nat) : Int), (C b).length))).map
        Prod.fst).Perm ((seedQueue (countFrequencies S)).map HuffmanNode.frequency) := by
      rw [seedQueue_frequencies, List.map_map]
      refine List.Perm.trans ?_ (hfp.map Prod.snd).symm
      rw [List.map_map]
      exact List.Perm.refl _
    have hopt := mergeLoopFuel_optimal tie _ hpos htot _ (seedQueue (countFrequencies S))
      (seedQueue_sumsQueue _) root (mergeLoop_of_buildTree tie S root hb) _ hweights hkraft
    rw [queueCost_seedQueue, zero_add, costA_eq_sum] at hopt
    rw [← hleft] at hopt
    exact_mod_cast hopt

/-! ## An input whose counters wrap past zero -/

theorem mem_longInput3 (x : Byte) (h : x ∈ longInput3) : x = 97 ∨ x = 98 ∨ x = 99 := by
  unfold longInput3 at h
  rw [List.mem_append, List.mem_replicate] at h
  rcases h with h | h
  · exact Or.inl h.2
  · simp only [List.mem_cons, List.mem_singleton, List.not_mem_nil, or_false] at h
    rcases h with h | h | h | h | h | h
    · exact Or.inr (Or.inl h)
    · exact Or.inr (Or.inl h)
    · exact Or.inr (Or.inr h)
    · exact Or.inr (Or.inr h)
    · exact Or.inr (Or.inr h)
    · exact Or.inr (Or.inr h)

theorem countFrequencies_longInput3 (c : Byte) : countFrequencies longInput3 c = freq3 c := by
  rw [countFrequencies_apply, longInput3, List.count_append, List.count_replicate]
  unfold freq3
  by_cases h1 : c = 97
  · subst h1
    have e : ((97 : Byte) == 97) = true := by decide
    rw [e]
    decide
  · have e1 : ((97 : Byte) == c) = false := by
      simp only [beq_eq_false_iff_ne, ne_eq]; exact fun e => h1 e.symm
    rw [e1, if_neg h1]
    by_cases h2 : c = 98
    · subst h2; decide
    · rw [if_neg h2]
      by_cases h3 : c = 99
      · subst h3; decide
      · rw [if_neg h3]
        have e2 : ¬ (98 : Byte) = c := fun e => h2 e.symm
        have e3 : ¬ (99 : Byte) = c := fun e => h3 e.symm
        simp [List.count_cons, e2, e3, wrapInt]

set_option maxRecDepth 100000 in
theorem seedQueue_freq3 :
    seedQueue freq3
      = [mk 97 1 nullptr nullptr, mk 98 2 nullptr nullptr, mk 99 4 nullptr nullptr] := by
  decide

theorem seedQueue_longInput3 :
    seedQueue (countFrequencies longInput3)
      = [mk 97 1 nullptr nullptr, mk 98 2 nullptr nullptr, mk 99 4 nullptr nullptr] := by
  have : countFrequencies longInput3 = freq3 := funext countFrequencies_longInput3
  rw [this, seedQueue_freq3]

set_option maxRecDepth 100000 in
theorem rootOfQueue_freq3 :
    rootOfQueue firstTie
      [mk 97 1 nullptr nullptr, mk 98 2 nullptr nullptr, mk 99 4 nullptr nullptr]
      = some root3 := by
  decide

theorem zip_longInput3 :
    zip firstTie longInput3 = some (zipFromRoot root3 longInput3) := by
  apply zip_of_buildTree
  unfold buildTree
  rw [seedQueue_longInput3, rootOfQueue_freq3]

theorem generateCodes_root3 (x : Byte) (h : x = 97 ∨ x = 98 ∨ x = 99) :
    ∃ c, generateCodes root3 x = some c ∧ c.length = if x = 99 then 1 else 2 := by
  rcases h with rfl | rfl | rfl
  · exact ⟨[48, 48], by decide, by decide⟩
  · exact ⟨[48, 49], by decide, by decide⟩
  · exact ⟨[49], by decide, by decide⟩

theorem encodedData_longInput3 :
    (zipFromRoot root3 longInput3).encodedData.length = 4294967297 * 2 + 8 := by
  rw [zipFromRoot_encodedData, encodeLoop_total _ _ _ (fun b hb => by
    obtain ⟨c, hc, -⟩ := generateCodes_root3 b (mem_longInput3 b hb)
    exact ⟨c, hc⟩)]
  show ([] ++ encodeWith (generateCodes root3) longInput3).length = _
  rw [List.nil_append, encodeWith_length, longInput3, List.map_append, List.map_replicate,
    List.sum_append, List.sum_replicate, smul_eq_mul]
  have h97 : ((generateCodes root3 97).getD []).length = 2 := by decide
  rw [h97]
  decide

theorem shortCode_cost_longInput3 :
    (longInput3.dedup.map (fun b => longInput3.count b * (shortCode b).length)).sum
      = 4294967297 + 12 := by
  rw [← sum_map_eq_sum_dedup, longInput3, List.map_append, List.map_replicate,
    List.sum_append, List.sum_replicate, smul_eq_mul]
  have h97 : (shortCode 97).length = 1 := by decide
  rw [h97]
  decide

set_option maxRecDepth 10000 in
theorem shortCode_bits (x : Byte) : ∀ d ∈ shortCode x, d = chZero ∨ d = chOne := by
  unfold shortCode
  by_cases h1 : x = 97
  · rw [if_pos h1]; decide
  · rw [if_neg h1]
    by_cases h2 : x = 98
    · rw [if_pos h2]; decide
    · rw [if_neg h2]; decide

theorem shortCode_prefixFree (x y : Byte) (hx : x ∈ longInput3) (hy : y ∈ longInput3)
    (hxy : x ≠ y) : ¬ shortCode x <+: shortCode y := by
  have hx' := mem_longInput3 x hx
  have hy' := mem_longInput3 y hy
  rcases hx' with rfl | rfl | rfl <;> rcases hy' with rfl | rfl | rfl <;>
    first
    | exact absurd rfl hxy
    | (intro hp
       have hl := hp.length_le
       revert hp
       decide)

/-! ## The claims -/

/-- C1 (core round trip), at the input `zzzz`: for every tie order the run
encodes `zzzz` as the empty stream, and the decoder run on it with the inverse
of the generated table writes nothing, so it does not return `zzzz`. -/
theorem roundtrip_fails_single_byte (tie : Tie) :
    ∃ r, zip tie [122, 122, 122, 122] = some r ∧
      decode (invertEntries r.generated.entries) r.encodedData = [] ∧
      decode (invertEntries r.generated.entries) r.encodedData ≠ [122, 122, 122, 122] := by
  refine ⟨_, zip_zzzz tie, ?_, ?_⟩
  · rw [encodedData_zzzz]; rfl
  · rw [encodedData_zzzz]
    have : decode (invertEntries
        (zipFromRoot (mk 122 4 nullptr nullptr) [122, 122, 122, 122]).generated.entries) []
        = [] := rfl
    rw [this]
    decide

/-- C2 (prefix-free code table). For a non-empty input the code table that
`buildHuffmanCodes` generates is prefix-free: the code word of a byte is never
a prefix of the code word of another byte, for every tie order of the queue.
The table is generated for every non-empty input shorter than 2^31 bytes. -/
theorem codeTable_prefixFree (tie : Tie) (S : Str) (hne : S ≠ []) :
    (S.length < 2147483648 → ∃ r, zip tie S = some r) ∧
    ∀ r, zip tie S = some r → ∀ a b ca cb, a ≠ b →
      r.generated a = some ca → r.generated b = some cb → ¬ ca <+: cb := by
  constructor
  · intro hS
    obtain ⟨root, -, -, -, -, hz⟩ := zip_spec tie S hne hS
    exact ⟨_, hz⟩
  · intro r hz a b ca cb hab ha hb
    obtain ⟨root, -, rfl⟩ := zip_eq_some tie S r hz
    exact generateCodes_prefixFree root a b ca cb hab ha hb

/-- C2 at the input `aaab` with the first candidate as the top. -/
theorem codeTable_prefixFree_witness :
    ([97, 97, 97, 98] : Str) ≠ [] ∧
    ((([97, 97, 97, 98] : Str).length < 2147483648 →
        ∃ r, zip firstTie [97, 97, 97, 98] = some r) ∧
      ∀ r, zip firstTie [97, 97, 97, 98] = some r → ∀ a b ca cb, a ≠ b →
        r.generated a = some ca → r.generated b = some cb → ¬ ca <+: cb) :=
  ⟨by decide, codeTable_prefixFree firstTie [97, 97, 97, 98] (by decide)⟩

/-- C3 (code word length floor), at the input `zzzz`: for every tie order the
run generates the empty code word for the byte `z`, and the encoded stream is
empty. -/
theorem single_byte_codeword_empty (tie : Tie) :
    ∃ r, zip tie [122, 122, 122, 122] = some r ∧ r.generated 122 = some [] ∧
      r.encodedData = [] :=
  ⟨_, zip_zzzz tie, generated_zzzz, encodedData_zzzz⟩

/-- C4 (the code table is a bijection on the bytes of the input), for inputs
shorter than 2^31 bytes. For every non-empty such input and every tie order
the run generates a table; a byte has an entry exactly when it occurs in the
input; two bytes never share a code word; the encode loop finds every byte of
the input in the table, so it adds no entry and the stream is the
concatenation of the code words. -/
theorem codeTable_bijective (tie : Tie) (S : Str) (hne : S ≠ [])
    (hS : S.length < 2147483648) :
    ∃ r, zip tie S = some r ∧
      (∀ b, (∃ c, r.generated b = some c) ↔ b ∈ S) ∧
      (∀ a b c, r.generated a = some c → r.generated b = some c → a = b) ∧
      (∀ b, r.huffmanCodes b = r.generated b) ∧
      r.encodedData = (S.map (fun b => (r.generated b).getD [])).flatten := by
  obtain ⟨root, -, -, hkeys, -, hz⟩ := zip_spec tie S hne hS
  refine ⟨_, hz, ?_, ?_, fun _ => rfl, rfl⟩
  · intro b
    show (∃ c, generateCodes root b = some c) ↔ b ∈ S
    rw [generateCodes_isSome_iff, leafCodes_map_fst]
    exact hkeys b
  · intro a b c ha hb
    by_contra hab
    exact generateCodes_prefixFree root a b c c hab ha hb (List.prefix_refl c)

/-- C4 with the length bound, at the input `aaab`. -/
theorem codeTable_bijective_witness :
    ∃ r, zip firstTie [97, 97, 97, 98] = some r ∧
      (∀ b, (∃ c, r.generated b = some c) ↔ b ∈ ([97, 97, 97, 98] : Str)) ∧
      (∀ a b c, r.generated a = some c → r.generated b = some c → a = b) ∧
      (∀ b, r.huffmanCodes b = r.generated b) ∧
      r.encodedData
        = (([97, 97, 97, 98] : Str).map (fun b => (r.generated b).getD [])).flatten :=
  codeTable_bijective firstTie [97, 97, 97, 98] (by decide) (by decide)

/-- C4, the claim as stated fails: in the input of 2^31 bytes `a` and one
byte `b` the counter of `a` wraps to a negative value, no leaf is seeded for
`a`, and the generated table has no entry for `a`, a byte of the input. -/
theorem codeTable_misses_byte_of_long_input :
    ∃ r, zip firstTie longInput = some r ∧ (97 : Byte) ∈ longInput ∧
      r.generated 97 = none :=
  ⟨_, zip_longInput firstTie, mem_longInput, generated_longInput⟩

/-- C5 (empty input): for the empty input no leaf is seeded, the merge loop
leaves the queue empty and `pq.top()` is called on the empty queue, so the run
has no defined result. -/
theorem zip_empty_input (tie : Tie) :
    seedQueue (countFrequencies []) = [] ∧ mergeLoop tie [] = some [] ∧
      pqTop tie [] = none ∧ zip tie [] = none := by
  refine ⟨seedQueue_nil, mergeLoop_nil tie, pqTop_nil tie, ?_⟩
  unfold zip
  rw [buildTree_of_no_seed tie [] seedQueue_nil]
  rfl

/-- C6 (scenario `aaab`), as the code has it: the frequency table is
`a:3, b:1`, the rarer byte `b` is the left child and gets `0`, `a` gets `1`,
and the encoded stream is `1110`, for every tie order. -/
theorem scenario_aaab (tie : Tie) :
    ∃ r, zip tie [97, 97, 97, 98] = some r ∧
      (∀ b, countFrequencies [97, 97, 97, 98] b
        = if b = 97 then 3 else if b = 98 then 1 else 0) ∧
      r.generated 97 = some [49] ∧ r.generated 98 = some [48] ∧
      (∀ b, b ≠ 97 → b ≠ 98 → r.generated b = none) ∧
      r.encodedData = [49, 49, 49, 48] := by
  refine ⟨_, zip_aaab tie, countFrequencies_aaab, ?_, ?_, ?_, encodedData_aaab⟩
  · rw [generated_aaab]; decide
  · rw [generated_aaab]; decide
  · intro b h1 h2
    rw [generated_aaab]
    simp [h1, h2]

/-- C6, the claim as stated fails: the encoded stream of `aaab` is `1110`,
not `0001`. -/
theorem scenario_aaab_not_0001 :
    ∃ r, zip firstTie [97, 97, 97, 98] = some r ∧ r.encodedData = [49, 49, 49, 48] ∧
      r.encodedData ≠ [48, 48, 48, 49] := by
  refine ⟨_, zip_aaab firstTie, encodedData_aaab, ?_⟩
  rw [encodedData_aaab]
  decide

/-- C7 (header validation). `unzip` exits with status 1 exactly when the first
line of the text is not `CODES:`; otherwise it exits with status 0; when it
exits with status 1 it has written nothing; the empty text is rejected. -/
theorem unzip_header (text : Str) :
    ((unzip text).exitCode = 1 ↔
      text.takeWhile (fun c => decide (c ≠ chNewline)) ≠ codesHeader) ∧
    ((unzip text).exitCode = 1 ∨ (unzip text).exitCode = 0) ∧
    ((unzip text).exitCode = 1 → (unzip text).output = []) ∧
    unzip [] = { exitCode := 1, output := [] } := by
  have key := parseFile_eq_none_iff text
  refine ⟨?_, ?_, ?_, by decide⟩
  · rw [← key]
    unfold unzip
    cases parseFile text <;> simp
  · unfold unzip
    cases parseFile text <;> simp
  · unfold unzip
    cases parseFile text <;> simp

/-- C8 (format round trip). For a table given by its entries in any order,
with pairwise different, non-empty code words of `0`/`1` and no entry for the
newline byte, and a stream of `0`/`1`, parsing the serialized text yields the
stream and the inverse map: a code word is mapped to a byte exactly when the
pair is an entry. -/
theorem parse_serialize (entries : List (Byte × Str)) (D : Str)
    (hinj : (entries.map Prod.snd).Nodup)
    (hne : ∀ e ∈ entries, e.2 ≠ [])
    (hbits : ∀ e ∈ entries, ∀ c ∈ e.2, c = chZero ∨ c = chOne)
    (hnl : ∀ e ∈ entries, e.1 ≠ chNewline)
    (hD : ∀ c ∈ D, c = chZero ∨ c = chOne) :
    ∃ m, parseFile (serialize entries D) = some (m, D) ∧
      ∀ code b, m code = some b ↔ (b, code) ∈ entries := by
  refine ⟨invertEntries entries, parseFile_serialize entries D hne ?_ ?_,
    fun code b => invertEntries_eq_some_iff entries code b hinj⟩
  · intro e he hmem
    simp only [entryText, List.mem_cons] at hmem
    rcases hmem with h | h | h
    · exact hnl e he h.symm
    · exact absurd h (by decide)
    · rcases hbits e he _ h with h' | h' <;> exact absurd h' (by decide)
  · intro hmem
    rcases hD _ hmem with h' | h' <;> exact absurd h' (by decide)

set_option maxRecDepth 10000 in
/-- C8 at the table `a:1, b:0` and the stream `1110`. -/
theorem parse_serialize_witness :
    ∃ m, parseFile (serialize [(97, [49]), (98, [48])] [49, 49, 49, 48])
        = some (m, [49, 49, 49, 48]) ∧
      ∀ code b, m code = some b ↔ (b, code) ∈ [((97 : Byte), ([49] : Str)), (98, [48])] :=
  parse_serialize [(97, [49]), (98, [48])] [49, 49, 49, 48]
    (by decide) (by decide) (by decide) (by decide) (by decide)

/-- C9 (scenario of all byte values), without the newline byte: for an input
that contains each of the 255 byte values other than newline exactly once,
compressing it to the output text and decompressing that text exits with
status 0 and restores the input, for every tie order. -/
theorem roundtrip_all_bytes_but_newline (tie : Tie) (S : Str) (hnd : S.Nodup)
    (hmem : ∀ b, b ∈ S ↔ b ≠ chNewline) :
    ∃ r, zip tie S = some r ∧ unzip r.outputFile = { exitCode := 0, output := S } := by
  have hlen : S.length ≤ 256 := by
    have := hnd.length_le_card
    rw [Fintype.card_fin] at this
    exact this
  exact zip_unzip_roundtrip tie S 0 1 (by decide) ((hmem 0).2 (by decide))
    ((hmem 1).2 (by decide)) (fun h => (hmem _).1 h rfl) (by omega)

/-- C9 without the newline byte, at the input of the bytes 0..255 without 10
in increasing order. -/
theorem roundtrip_all_bytes_but_newline_witness :
    ∃ r, zip firstTie (byteValues.filter (fun b => decide (b ≠ chNewline))) = some r ∧
      unzip r.outputFile
        = { exitCode := 0, output := byteValues.filter (fun b => decide (b ≠ chNewline)) } :=
  roundtrip_all_bytes_but_newline firstTie _ (nodup_byteValues.filter _)
    (fun b => by rw [List.mem_filter]; simp [mem_byteValues])

/-- C9, the claim as stated fails: the input of all 256 byte values, each
once, is compressed, but decompressing the output text does not restore it:
the table line of the newline byte is cut in two and skipped. -/
theorem roundtrip_all_bytes_fails :
    ∃ r, zip firstTie byteValues = some r ∧ (unzip r.outputFile).output ≠ byteValues := by
  have hne : byteValues ≠ [] := List.ne_nil_of_mem (mem_byteValues 0)
  have hlen : byteValues.length < 2147483648 := by
    unfold byteValues
    rw [List.length_finRange]
    decide
  obtain ⟨root, -, -, -, -, hz⟩ := zip_spec firstTie byteValues hne hlen
  refine ⟨_, hz, ?_⟩
  intro h
  have := unzip_output_no_newline (serialize (generateCodes root).entries
    (encodeWith (generateCodes root) byteValues))
  have h' : (unzip (serialize (generateCodes root).entries
      (encodeWith (generateCodes root) byteValues))).output = byteValues := h
  rw [h'] at this
  exact this (mem_byteValues _)

/-- C10 (frequency counter). For an input shorter than 2^31 bytes the count
recorded for a byte is its number of occurrences; the queue is seeded with the
leaf of the byte exactly when that count is positive; every seeded node is
such a leaf, none twice; the empty input seeds nothing. -/
theorem frequency_counter (S : Str) (hS : S.length < 2147483648) (b : Byte) :
    countFrequencies S b = (S.count b : Int) ∧
    (mk b (S.count b : Int) nullptr nullptr ∈ seedQueue (countFrequencies S)
      ↔ 0 < S.count b) ∧
    (∀ x ∈ seedQueue (countFrequencies S),
      ∃ c, x = mk c (S.count c : Int) nullptr nullptr ∧ 0 < S.count c) ∧
    (seedQueue (countFrequencies S)).Nodup ∧
    seedQueue (countFrequencies []) = [] := by
  have hc := countFrequencies_of_short S hS
  refine ⟨hc b, ?_, ?_, seedQueue_nodup _, seedQueue_nil⟩
  · rw [mem_seedQueue]
    constructor
    · rintro ⟨c, hpos, he⟩
      simp only [leafNode, HuffmanNode.mk.injEq] at he
      rw [he.1, hc c] at *
      exact_mod_cast hpos
    · intro hpos
      refine ⟨b, ?_, ?_⟩
      · rw [hc b]; exact_mod_cast hpos
      · simp [leafNode, hc b]
  · intro x hx
    obtain ⟨c, hpos, rfl⟩ := (mem_seedQueue _ x).1 hx
    rw [hc c] at hpos
    have h1 : leafNode (countFrequencies S) c = mk c (S.count c : Int) nullptr nullptr := by
      unfold leafNode; rw [hc c]
    have h2 : 0 < S.count c := by exact_mod_cast hpos
    exact ⟨c, h1, h2⟩

/-- C10 at the input `aaab` and the byte `a`. -/
theorem frequency_counter_witness :
    countFrequencies [97, 97, 97, 98] 97 = ((([97, 97, 97, 98] : Str).count 97 : Nat) : Int) ∧
    (mk 97 ((([97, 97, 97, 98] : Str).count 97 : Nat) : Int) nullptr nullptr
        ∈ seedQueue (countFrequencies [97, 97, 97, 98])
      ↔ 0 < ([97, 97, 97, 98] : Str).count 97) ∧
    (∀ x ∈ seedQueue (countFrequencies [97, 97, 97, 98]),
      ∃ c, x = mk c ((([97, 97, 97, 98] : Str).count c : Nat) : Int) nullptr nullptr ∧
        0 < ([97, 97, 97, 98] : Str).count c) ∧
    (seedQueue (countFrequencies [97, 97, 97, 98])).Nodup ∧
    seedQueue (countFrequencies []) = [] :=
  frequency_counter [97, 97, 97, 98] (by decide) 97

/-- C13 (decoder correctness for a prefix-free table). For a map whose code
words are non-empty and prefix-free and a sequence of its code words, the
decode loop started on the concatenation writes the bytes of the code words in
order and ends with the empty candidate; each code word is matched where it
ends, whatever follows, and the loop goes on from the empty candidate. -/
theorem decoder_correct (M : DecodeMap) (hpf : PrefixFree M) (hne : M [] = none)
    (ws : List (Str × Byte)) (h : ∀ p ∈ ws, M p.1 = some p.2) :
    decodeLoop M [] [] (ws.map Prod.fst).flatten = (ws.map Prod.snd, []) ∧
    ∀ (w : Str) (b : Byte) (out rest : Str), M w = some b →
      decodeLoop M [] out (w ++ rest) = decodeLoop M [] (out ++ [b]) rest := by
  have hwne : ∀ w b, M w = some b → w ≠ [] := by
    intro w b hw e
    rw [e, hne] at hw
    cases hw
  constructor
  · have := decodeLoop_codewords M hpf ws (fun p hp => ⟨hwne _ _ (h p hp), h p hp⟩) [] []
    rw [List.append_nil, List.nil_append, decodeLoop_nil] at this
    exact this
  · intro w b out rest hw
    exact decodeLoop_codeword M hpf w b hw w [] out rest (List.nil_append w) (hwne w b hw)

/-- C13 at the table `a:1, b:0` and the code words `1, 1, 0`. -/
theorem decoder_correct_witness :
    decodeLoop sampleTable [] [] (([([49], 97), ([49], 97), ([48], 98)] :
        List (Str × Byte)).map Prod.fst).flatten
      = (([([49], 97), ([49], 97), ([48], 98)] : List (Str × Byte)).map Prod.snd, []) ∧
    ∀ (w : Str) (b : Byte) (out rest : Str), sampleTable w = some b →
      decodeLoop sampleTable [] out (w ++ rest)
        = decodeLoop sampleTable [] (out ++ [b]) rest :=
  decoder_correct sampleTable sampleTable_prefixFree rfl
    [([49], 97), ([49], 97), ([48], 98)] (by decide)

/-- C16 (the leftover is discarded silently). For a prefix-free map with
non-empty code words, a sequence of its code words and a string `r` (empty or
not) no non-empty prefix of which is a code word, the decode loop on the code words
followed by `r` writes exactly the bytes of the code words, as without `r`,
and ends with `r` as the candidate; a file with that table and that stream
line is decompressed with exit status 0 and that output. -/
theorem leftover_discarded (M : DecodeMap) (hpf : PrefixFree M) (hne : M [] = none)
    (ws : List (Str × Byte)) (h : ∀ p ∈ ws, M p.1 = some p.2)
    (r : Str) (hr : ∀ p, p <+: r → p ≠ [] → M p = none) :
    decodeLoop M [] [] ((ws.map Prod.fst).flatten ++ r) = (ws.map Prod.snd, r) ∧
    decode M ((ws.map Prod.fst).flatten ++ r) = decode M (ws.map Prod.fst).flatten ∧
    ∀ text, parseFile text = some (M, (ws.map Prod.fst).flatten ++ r) →
      unzip text = { exitCode := 0, output := ws.map Prod.snd } := by
  have hwne : ∀ p ∈ ws, p.1 ≠ [] ∧ M p.1 = some p.2 := by
    intro p hp
    refine ⟨?_, h p hp⟩
    intro e
    have := h p hp
    rw [e, hne] at this
    cases this
  have h1 : decodeLoop M [] [] ((ws.map Prod.fst).flatten ++ r) = (ws.map Prod.snd, r) := by
    rw [decodeLoop_codewords M hpf ws hwne [] r, List.nil_append,
      decodeLoop_no_match M r [] _ (by simpa using hr), List.nil_append]
  have h2 : decodeLoop M [] [] (ws.map Prod.fst).flatten = (ws.map Prod.snd, []) := by
    have := decodeLoop_codewords M hpf ws hwne [] []
    rw [List.append_nil, List.nil_append, decodeLoop_nil] at this
    exact this
  refine ⟨h1, ?_, ?_⟩
  · unfold decode
    rw [h1, h2]
  · intro text ht
    rw [unzip_of_parseFile text M _ ht]
    unfold decode
    rw [h1]

/-- C16 at the table `a:1, b:0`, the code words `1, 0` and the leftover `2`. -/
theorem leftover_discarded_witness :
    decodeLoop sampleTable [] []
        ((([([49], 97), ([48], 98)] : List (Str × Byte)).map Prod.fst).flatten ++ [50])
      = (([([49], 97), ([48], 98)] : List (Str × Byte)).map Prod.snd, [50]) ∧
    decode sampleTable
        ((([([49], 97), ([48], 98)] : List (Str × Byte)).map Prod.fst).flatten ++ [50])
      = decode sampleTable (([([49], 97), ([48], 98)] : List (Str × Byte)).map Prod.fst).flatten ∧
    ∀ text, parseFile text = some (sampleTable,
        (([([49], 97), ([48], 98)] : List (Str × Byte)).map Prod.fst).flatten ++ [50]) →
      unzip text
        = { exitCode := 0, output := [([49], 97), ([48], (98 : Byte))].map Prod.snd } :=
  leftover_discarded sampleTable sampleTable_prefixFree rfl [([49], 97), ([48], 98)]
    (by decide) [50] (by
      intro p hp hne
      have hl : p.length ≤ 1 := by simpa using hp.length_le
      cases p with
      | nil => exact absurd rfl hne
      | cons x t =>
        cases t with
        | nil =>
          have hx : x = 50 := by
            obtain ⟨s, hs⟩ := hp
            simp at hs
            exact hs.1
          subst hx
          decide
        | cons y t => simp at hl)

/-- C17 (entry-line parsing), with the length the code asks for. A line
before `DATA:` that is a byte, a colon and a non-empty code word maps the code
word to the byte; a line shorter than three characters, also a byte and a
colon alone, or a line without a colon at index 1 leaves the map as it is; in
each case the loop goes on with the next line. -/
theorem entry_line_parsing (line : Str) (rest : List Str) (M : DecodeMap)
    (hd : line ≠ dataHeader) :
    readEntries (line :: rest) M = readEntries rest (parseEntry line M) ∧
    (∀ ch c code, line = ch :: chColon :: c :: code →
      parseEntry line M = M.set (c :: code) ch) ∧
    (line.length < 3 → parseEntry line M = M) ∧
    (line.get? 1 ≠ some chColon → parseEntry line M = M) := by
  refine ⟨by rw [readEntries, if_neg hd], ?_, parseEntry_short line M,
    parseEntry_no_colon line M⟩
  intro ch c code e
  rw [e]
  exact parseEntry_entry ch c code M

/-- C17 at the line `a:1`. -/
theorem entry_line_parsing_witness :
    readEntries ([97, 58, 49] :: [dataHeader]) (fun _ => none)
      = readEntries [dataHeader] (parseEntry [97, 58, 49] (fun _ => none)) ∧
    (∀ ch c code, ([97, 58, 49] : Str) = ch :: chColon :: c :: code →
      parseEntry [97, 58, 49] (fun _ => none) = DecodeMap.set (fun _ => none) (c :: code) ch) ∧
    (([97, 58, 49] : Str).length < 3 →
      parseEntry [97, 58, 49] (fun _ => none) = (fun _ => none)) ∧
    (([97, 58, 49] : Str).get? 1 ≠ some chColon →
      parseEntry [97, 58, 49] (fun _ => none) = (fun _ => none)) :=
  entry_line_parsing [97, 58, 49] [dataHeader] (fun _ => none) (by decide)

/-- C17, the claim as stated fails: the line `z:` has the colon at index 1
and length 2, and the parser adds no entry for it: after the lines `z:` and
`DATA:` the map is still empty at the code word after the colon. -/
theorem entry_line_of_length_two_skipped :
    ([122, 58] : Str).get? 1 = some chColon ∧ ([122, 58] : Str).length ≥ 2 ∧
    (readEntries [[122, 58], dataHeader] (fun _ => none)).2 (([122, 58] : Str).drop 2)
      = none := by
  decide

/-- C20 (decompression never expands past the stream length). For a text
that passes the header check the parsed map has no empty code word, and
`unzip` exits with status 0 having written at most as many bytes as the
stream line has characters. -/
theorem unzip_output_length (text : Str) (M : DecodeMap) (D : Str)
    (h : parseFile text = some (M, D)) :
    M [] = none ∧ unzip text = { exitCode := 0, output := decode M D } ∧
    (unzip text).output.length ≤ D.length := by
  refine ⟨parseFile_nil text M D h, unzip_of_parseFile text M D h, ?_⟩
  rw [unzip_of_parseFile text M D h]
  have := decodeLoop_length M D [] []
  simpa [decode] using this

/-- C20 at the output text of the table `a:1, b:0` and the stream `1110`. -/
theorem unzip_output_length_witness :
    invertEntries [(97, [49]), (98, [48])] [] = none ∧
    unzip (serialize [(97, [49]), (98, [48])] [49, 49, 49, 48])
      = { exitCode := 0,
          output := decode (invertEntries [(97, [49]), (98, [48])]) [49, 49, 49, 48] } ∧
    (unzip (serialize [(97, [49]), (98, [48])] [49, 49, 49, 48])).output.length
      ≤ ([49, 49, 49, 48] : Str).length :=
  unzip_output_length _ _ _
    (parseFile_serialize [(97, [49]), (98, [48])] [49, 49, 49, 48]
      (by decide) (by decide) (by decide))

/-- C15 (greedy minimal merge). For every tie order: an iteration of the merge
loop on a queue of two or more nodes removes a node `left`, then a node
`right`, whose frequencies are at most the frequency of every node that stays
in the queue, with `left` at most `right`, and pushes their parent; so in a
tree the loop has built every node with two children has a left child of
frequency at most that of its right child; and the loop builds a tree for
every non-empty input shorter than 2^31 bytes. -/
theorem greedy_minimal_merge (tie : Tie) :
    (∀ pq : List HuffmanNode, 2 ≤ pq.length →
      ∃ left right rest, pq.Perm (left :: right :: rest) ∧
        mergeStep tie pq
          = some (rest ++ [mk 0 (wrapInt (left.frequency + right.frequency)) left right]) ∧
        left.frequency ≤ right.frequency ∧
        ∀ y ∈ rest, left.frequency ≤ y.frequency ∧ right.frequency ≤ y.frequency) ∧
    (∀ S root, buildTree tie S = some root → LeftLe root) ∧
    (∀ S : Str, S ≠ [] → S.length < 2147483648 → ∃ root, buildTree tie S = some root) := by
  refine ⟨?_, buildTree_leftLe tie, buildTree_isSome tie⟩
  intro pq h2
  obtain ⟨left, right, rest, hs, hperm, hmin1, hmin2⟩ := mergeStep_spec tie pq h2
  exact ⟨left, right, rest, hperm, hs, hmin1 right (by simp),
    fun y hy => ⟨hmin1 y (by simp [hy]), hmin2 y hy⟩⟩

/-- C18 (code word length and recursion depth). For every tie order and every
input with `n` distinct byte values for which the loop builds a tree, the
tree is at most `n - 1` edges high, hence at most 255, and every generated
code word is at most that long: `buildHuffmanCodes`, a structural recursion on
the tree, never goes deeper. The tree is built for every non-empty input
shorter than 2^31 bytes. -/
theorem codeword_length_bound (tie : Tie) (S : Str) :
    (S ≠ [] → S.length < 2147483648 → ∃ root, buildTree tie S = some root) ∧
    ∀ root, buildTree tie S = some root →
      height root ≤ S.dedup.length - 1 ∧ height root ≤ 255 ∧
      ∀ b c, generateCodes root b = some c →
        c.length ≤ height root ∧ c.length ≤ S.dedup.length - 1 ∧ c.length ≤ 255 := by
  refine ⟨buildTree_isSome tie S, ?_⟩
  intro root h
  have h1 := height_lt_leaves root (buildTree_strict tie S root h).1
  have h2 := leaves_length_le tie S root h
  have h3 := dedup_length_le S
  refine ⟨by omega, by omega, ?_⟩
  intro b c hc
  have := leafCodes_length root [] _ (generateCodes_eq_some root b c hc)
  simp only [List.length_nil, Nat.zero_add] at this
  exact ⟨this, by omega, by omega⟩

/-- C11 (tree shape), for inputs shorter than 2^31 bytes. For every non-empty
such input with `n` distinct byte values and every tie order, the merge loop
makes exactly `n - 1` iterations and ends with one tree; the tree is strict
and has `n` leaves, one for each distinct byte of the input, with the number
of occurrences of the byte as frequency. -/
theorem tree_shape (tie : Tie) (S : Str) (hne : S ≠ []) (hS : S.length < 2147483648) :
    ∃ root, buildTree tie S = some root ∧
      iterateMerge tie (S.dedup.length - 1) (seedQueue (countFrequencies S)) = some [root] ∧
      mergeLoop tie (seedQueue (countFrequencies S)) = some [root] ∧
      Strict root ∧ (leaves root).length = S.dedup.length ∧
      (leaves root).Perm (S.dedup.map (fun b => (b, (S.count b : Int)))) := by
  obtain ⟨root, hb, hstrict, -, -, hperm⟩ := buildTree_sums tie S hne hS
  have hit := iterateMerge_seedQueue tie S hS root hb
  refine ⟨root, hb, hit, ?_, hstrict, by rw [hperm.length_eq, List.length_map], hperm⟩
  obtain ⟨root', hrun, -, -⟩ := mergeLoop_spec tie (seedQueue (countFrequencies S))
    (fun x hx => by
      obtain ⟨b, -, rfl⟩ := (mem_seedQueue _ x).1 hx
      exact strict_leafNode _ b)
    (seedQueue_ne_nil S hne hS)
  have : buildTree tie S = some root' := by
    unfold buildTree
    rw [rootOfQueue_eq tie _ _ hrun]
    exact pqTop_singleton tie root'
  rw [hb] at this
  cases this
  exact hrun

/-- C11 with the length bound, at the input `aaab`. -/
theorem tree_shape_witness :
    ∃ root, buildTree firstTie [97, 97, 97, 98] = some root ∧
      iterateMerge firstTie (([97, 97, 97, 98] : Str).dedup.length - 1)
        (seedQueue (countFrequencies [97, 97, 97, 98])) = some [root] ∧
      mergeLoop firstTie (seedQueue (countFrequencies [97, 97, 97, 98])) = some [root] ∧
      Strict root ∧ (leaves root).length = ([97, 97, 97, 98] : Str).dedup.length ∧
      (leaves root).Perm
        (([97, 97, 97, 98] : Str).dedup.map
          (fun b => (b, ((([97, 97, 97, 98] : Str).count b : Nat) : Int)))) :=
  tree_shape firstTie [97, 97, 97, 98] (by decide) (by decide)

/-- C11, the claim as stated fails: the input of 2^31 bytes `a` and one byte
`b` has two distinct byte values, but the tree the loop builds is the single
leaf of `b`: the counter of `a` has wrapped to a negative value and `a` has no
leaf. -/
theorem tree_of_long_input_misses_leaf :
    buildTree firstTie longInput = some (mk 98 1 nullptr nullptr) ∧
    (97 : Byte) ∈ longInput ∧ (98 : Byte) ∈ longInput ∧
    leaves (mk 98 1 nullptr nullptr) = [(98, 1)] :=
  ⟨buildTree_longInput firstTie, mem_longInput, mem_longInput_b, by decide⟩

/-- C12 (round trip for inputs with two distinct bytes), for inputs shorter
than 2^31 bytes. For every such input and every tie order, the decode loop run
on the encoded stream with the inverse of the generated code table writes
exactly the input and ends with the empty candidate. -/
theorem roundtrip_two_bytes (tie : Tie) (S : Str) (a b : Byte) (hab : a ≠ b)
    (ha : a ∈ S) (hb : b ∈ S) (hS : S.length < 2147483648) :
    ∃ r, zip tie S = some r ∧
      decodeLoop (invertEntries r.generated.entries) [] [] r.encodedData = (S, []) :=
  zip_decode_roundtrip tie S a b hab ha hb hS

/-- C12 with the length bound, at the input `aaab`. -/
theorem roundtrip_two_bytes_witness :
    ∃ r, zip firstTie [97, 97, 97, 98] = some r ∧
      decodeLoop (invertEntries r.generated.entries) [] [] r.encodedData
        = ([97, 97, 97, 98], []) :=
  roundtrip_two_bytes firstTie [97, 97, 97, 98] 97 98 (by decide) (by decide) (by decide)
    (by decide)

/-- C12, the claim as stated fails: the input of 2^31 bytes `a` and one byte
`b` has two distinct byte values, its encoded stream is empty, and the decode
loop writes nothing, not the input. -/
theorem roundtrip_of_long_input_fails :
    ∃ r, zip firstTie longInput = some r ∧
      (97 : Byte) ∈ longInput ∧ (98 : Byte) ∈ longInput ∧
      (decodeLoop (invertEntries r.generated.entries) [] [] r.encodedData).1 = [] ∧
      (decodeLoop (invertEntries r.generated.entries) [] [] r.encodedData).1 ≠ longInput := by
  refine ⟨_, zip_longInput firstTie, mem_longInput, mem_longInput_b, ?_, ?_⟩
  · rw [encodedData_longInput]; rfl
  · rw [encodedData_longInput]
    intro h
    have : (97 : Byte) ∈ ([] : Str) := by
      have h2 := mem_longInput
      rw [← h] at h2
      exact h2
    simp at this

/-- C14 (frequency sums). In the tree built for a non-empty input shorter than
2^31 bytes, for every tie order, the frequency of every node with children is
the sum of the frequencies of its two children, a sum inside the range of
`int`, and the sum of the frequencies of the leaves below it; the leaves carry
the numbers of occurrences of the distinct bytes; the frequency of the root is
the length of the input. -/
theorem frequency_sums (tie : Tie) (S : Str) (hne : S ≠ []) (hS : S.length < 2147483648) :
    ∃ root, buildTree tie S = some root ∧ SumsExact root ∧
      root.frequency = (S.length : Int) ∧
      (leaves root).Perm (S.dedup.map (fun b => (b, (S.count b : Int)))) := by
  obtain ⟨root, hb, -, hexact, hfreq, hperm⟩ := buildTree_sums tie S hne hS
  exact ⟨root, hb, hexact, hfreq, hperm⟩

/-- C14 at the input `aaab`. -/
theorem frequency_sums_witness :
    ∃ root, buildTree firstTie [97, 97, 97, 98] = some root ∧ SumsExact root ∧
      root.frequency = ((([97, 97, 97, 98] : Str).length : Nat) : Int) ∧
      (leaves root).Perm
        (([97, 97, 97, 98] : Str).dedup.map
          (fun b => (b, ((([97, 97, 97, 98] : Str).count b : Nat) : Int)))) :=
  frequency_sums firstTie [97, 97, 97, 98] (by decide) (by decide)

/-- C19 (optimality of the generated code), for inputs shorter than 2^31
bytes. For every non-empty such input, every tie order and every prefix-free
assignment `C` of `0`/`1` strings to the bytes of the input, the encoded stream
has length the sum over the distinct bytes of occurrences times generated code
word length, and this is at most the same sum for `C`. -/
theorem huffman_optimal (tie : Tie) (S : Str) (hne : S ≠ []) (hS : S.length < 2147483648)
    (C : Byte → Str) (hbits : ∀ x ∈ S, ∀ d ∈ C x, d = chZero ∨ d = chOne)
    (hpf : ∀ x ∈ S, ∀ y ∈ S, x ≠ y → ¬ C x <+: C y) :
    ∃ r, zip tie S = some r ∧
      r.encodedData.length
        = (S.dedup.map (fun b => S.count b * ((r.generated b).getD []).length)).sum ∧
      r.encodedData.length ≤ (S.dedup.map (fun b => S.count b * (C b).length)).sum :=
  zip_optimal tie S hne hS C hbits hpf

set_option maxRecDepth 10000 in
/-- C19 with the length bound, at the input `aaab` and the code `a = 0`,
`b = 10`. -/
theorem huffman_optimal_witness :
    ∃ r, zip firstTie [97, 97, 97, 98] = some r ∧
      r.encodedData.length
        = (([97, 97, 97, 98] : Str).dedup.map
            (fun b => ([97, 97, 97, 98] : Str).count b * ((r.generated b).getD []).length)).sum ∧
      r.encodedData.length
        ≤ (([97, 97, 97, 98] : Str).dedup.map
            (fun b => ([97, 97, 97, 98] : Str).count b * (shortCode b).length)).sum :=
  huffman_optimal firstTie [97, 97, 97, 98] (by decide) (by decide) shortCode
    (fun x _ => shortCode_bits x) (by decide)

/-- C19, the claim as stated fails: for the input of 2^32 + 1 bytes `a`, two
bytes `b` and four bytes `c` the counter of `a` has wrapped to 1, so `a` gets a
code word of two digits; the encoded stream is longer than with the
prefix-free code `a = 0`, `b = 10`, `c = 11`. -/
theorem generated_code_not_optimal_for_long_input :
    ∃ r, zip firstTie longInput3 = some r ∧
      (∀ x ∈ longInput3, ∀ d ∈ shortCode x, d = chZero ∨ d = chOne) ∧
      (∀ x ∈ longInput3, ∀ y ∈ longInput3, x ≠ y → ¬ shortCode x <+: shortCode y) ∧
      (longInput3.dedup.map (fun b => longInput3.count b * (shortCode b).length)).sum
        < r.encodedData.length := by
  refine ⟨_, zip_longInput3, fun x _ => shortCode_bits x,
    fun x hx y hy hxy => shortCode_prefixFree x y hx hy hxy, ?_⟩
  rw [shortCode_cost_longInput3, encodedData_longInput3]
  decide

end FileZipper
